import Mathlib

/-!
Verification of the dense multi-fragment read path of `ArrayReadState`
(`core/src/array/array_read_state.cc`).

Modelling conventions.

Within a single tile the schema's `cell_order_cmp` linearises cells to
positions `0 .. dEnd` (`dEnd` is the linearised `tile_domain_end`), and
`get_next_cell_coords` / `get_previous_cell_coords` are the successor and
predecessor of that linearisation.  The per-tile merge of
`compute_fragment_cell_pos_ranges` only ever inspects coordinates through
`cell_order_cmp`, `get_next_cell_coords` and `get_previous_cell_coords`
over the tile domain, so a `FragmentCellRange` is embedded as a fragment
id together with the two linearised endpoints of its cell range.

`std::priority_queue` is refined as a list kept sorted by the popping
order realised by `SmallerFragmentCellRange` (earliest range start first,
ties to the higher fragment id); `push` is ordered insertion, `pop` takes
the head.  C++ behaviour that is undefined is made observable instead of
being guessed at: calling `top()` on an empty queue where the read value
is provably never used afterwards sets the `ubRead` flag of the result,
and indexing the fragment vector with `-1` (which the merge loop does for
empty-fragment ranges, since unlike the conversion loop it does not test
`fragment_i == -1` first) aborts with `MergeRes.ubIndex`.

The `Fragment` and `ArraySchema` collaborators are external to this file
of the repository; where their behaviour decides a claim it is modelled
from the spec and marked as such in the corresponding doc comment.
-/

/-- Linearised `FragmentCellRange`: fragment id (`-1` denotes the
empty-fragment range) and the two endpoints of the cell range, as cell
positions in the tile domain's cell order. -/
structure FCR where
  frag : Int
  lo : Nat
  hi : Nat
deriving Repr, DecidableEq

/-- Popping precedence of the merge heap: `fcrBefore x y` holds when the
priority queue under `SmallerFragmentCellRange` (lines 1049-1067) delivers
`x` no later than `y`: the earlier range start first and, on equal starts,
the higher fragment id first. -/
def fcrBefore (x y : FCR) : Bool :=
  x.lo < y.lo || (x.lo == y.lo && y.frag ≤ x.frag)

/-- `std::priority_queue::push`, refined on the sorted-list queue:
ordered insertion with respect to `fcrBefore`. -/
def pqPush (r : FCR) : List FCR → List FCR
  | [] => [r]
  | t :: rest => if fcrBefore t r then t :: pqPush r rest else r :: t :: rest

/-- Seeding of the merge queue (lines 257-259): every unsorted input range
is pushed. -/
def pqSeed (inputs : List FCR) : List FCR :=
  inputs.foldl (fun q r => pqPush r q) []

/-- External `Fragment`, as consumed by the merge: its `dense()` flag and,
for a sparse fragment, the positions of its physical cells in the current
tile (`coords_exist` is membership, `get_first_two_coords` reads the first
two in cell order). -/
structure Frag where
  dense : Bool
  coords : List Nat
deriving Repr, DecidableEq

/-- `fragments[i]` on the fragment vector: out-of-range access (in
particular `i = -1`) yields `none`. -/
def fragLookup (frags : List Frag) (i : Int) : Option Frag :=
  if i < 0 then none else frags[i.toNat]?

/-- Modelled from the spec: `Fragment::get_first_two_coords`, which is not
part of this source file.  It returns the first two physical cells of the
fragment at or after `start` in cell order; a missing cell is reported as
`sentinel` (one past the tile-domain end), matching the guard
`cell_order_cmp(c, tile_domain_end) > 0` that the merge applies to both
returned coordinates. -/
def firstTwoCoords (coords : List Nat) (start sentinel : Nat) : Nat × Nat :=
  match coords.filter (fun c => start ≤ c) with
  | [] => (sentinel, sentinel)
  | [u] => (u, sentinel)
  | u :: v :: _ => (u, v)

/-- Result of the per-tile merge loop.  `ok out ubRead` is normal
completion with the emitted ranges `out`; `ubRead` records whether some
`pq.top()` was executed on an empty queue (lines 296 and 352 can do this;
the value read is never used before the next emptiness test, so the run
continues).  `ubIndex` is the unrecoverable `fragments[-1]` access. -/
inductive MergeRes where
  | ok (out : List FCR) (ubRead : Bool)
  | ubIndex
  | fuelOut
deriving Repr, DecidableEq

/-- Inner discard/trim loop of the merge (lines 313-355): while the top is
from an older fragment and starts inside the popped range `[pa, pb]` of
fragment `pf`, trim it to start at `pb + 1` if it sticks out past `pb`,
otherwise drop it.  The re-read of `top` directly after `pq.pop()` is
flagged in the returned `Bool` when the queue is empty at that point.
The fuel is `q.length + 1`, which bounds the iteration count (each
iteration removes one element whose start is `≤ pb` and inserts only
elements whose start is `pb + 1`). -/
def innerDiscard (pf : Int) (pa pb : Nat) : Nat → List FCR → Bool → Option (List FCR × Bool)
  | 0, _, _ => none
  | _ + 1, [], ub => some ([], ub)
  | k + 1, t :: rest, ub =>
    if t.frag < pf ∧ pa ≤ t.lo ∧ t.lo ≤ pb then
      let rest' := if pb < t.hi then pqPush ⟨t.frag, pb + 1, t.hi⟩ rest else rest
      innerDiscard pf pa pb k rest' (ub || rest'.isEmpty)
    else
      some (t :: rest, ub)

/-- The queue-processing loop of `compute_fragment_cell_pos_ranges`
(lines 275-452), transcribed over linearised cell positions.  `dEnd` is
the linearised `tile_domain_end`.  Fragment read failures are not
reachable here because the modelled fragment operations are pure; the
source's error path releases all ranges and returns `TILEDB_ARS_ERR`. -/
def mergeLoop (frags : List Frag) (dEnd : Nat) : Nat → List FCR → List FCR → Bool → MergeRes
  | 0, _, _, _ => .fuelOut
  | fuel + 1, q, out, ub =>
    match q with
    | [] => .ok out ub
    | p :: q1 =>
      match fragLookup frags p.frag with
      | none => .ubIndex
      | some fr =>
        if q1 = [] ∧ (fr.dense = true ∨ p.lo ≠ p.hi ∨ p.lo ∈ fr.coords) then
          .ok (out ++ [p]) ub
        else
          let ub1 := ub || q1.isEmpty
          if fr.dense = true ∨ p.lo = p.hi then
            if fr.dense = false ∧ p.lo ∉ fr.coords then
              mergeLoop frags dEnd fuel q1 out ub1
            else
              match innerDiscard p.frag p.lo p.hi (q1.length + 1) q1 ub1 with
              | none => .fuelOut
              | some (q2, ub2) =>
                match q2 with
                | [] => mergeLoop frags dEnd fuel [] (out ++ [p]) ub2
                | t :: _ =>
                  if p.frag < t.frag ∧ t.lo ≤ p.hi then
                    let q3 := if t.hi < p.hi then pqPush ⟨p.frag, t.hi + 1, p.hi⟩ q2 else q2
                    mergeLoop frags dEnd fuel q3 (out ++ [⟨p.frag, p.lo, t.lo - 1⟩]) ub2
                  else
                    mergeLoop frags dEnd fuel q2 (out ++ [p]) ub2
          else
            match q1 with
            | t :: _ =>
              if p.hi < t.lo then
                mergeLoop frags dEnd fuel q1 (out ++ [p]) ub1
              else
                let uv := firstTwoCoords fr.coords p.lo (dEnd + 1)
                if dEnd < uv.1 then
                  mergeLoop frags dEnd fuel q1 out ub1
                else
                  let q2 := pqPush ⟨p.frag, uv.1, uv.1⟩ q1
                  let q3 := if dEnd < uv.2 then q2 else pqPush ⟨p.frag, uv.2, p.hi⟩ q2
                  mergeLoop frags dEnd fuel q3 out ub1
            | [] =>
              let uv := firstTwoCoords fr.coords p.lo (dEnd + 1)
              if dEnd < uv.1 then
                mergeLoop frags dEnd fuel q1 out ub1
              else
                let q2 := pqPush ⟨p.frag, uv.1, uv.1⟩ q1
                let q3 := if dEnd < uv.2 then q2 else pqPush ⟨p.frag, uv.2, p.hi⟩ q2
                mergeLoop frags dEnd fuel q3 out ub1

/-- `compute_fragment_cell_pos_ranges` on unsorted inputs: seed the heap
with every input range and run the merge loop. -/
def mergeModel (frags : List Frag) (dEnd fuel : Nat) (inputs : List FCR) : MergeRes :=
  mergeLoop frags dEnd fuel (pqSeed inputs) [] false

/-- After conversion to cell-position ranges, the cells a merged range
makes the streamer deliver: every cell of the interval for a dense (or
empty, `-1`) fragment, and the fragment's physical cells inside the
interval for a sparse fragment (`get_cell_pos_ranges_sparse`). -/
def coversCell (frags : List Frag) (r : FCR) (c : Nat) : Bool :=
  decide (r.lo ≤ c) && decide (c ≤ r.hi) &&
    (match fragLookup frags r.frag with
     | some fr => fr.dense || decide (c ∈ fr.coords)
     | none => true)

/-- The sequence of cells delivered for one tile by a merged range list,
in delivery order. -/
def deliveredCells (frags : List Frag) (dEnd : Nat) (out : List FCR) : List Nat :=
  (out.map (fun r => (List.range (dEnd + 1)).filter (coversCell frags r))).flatten

/-- Validity of a range over the tile domain: non-empty interval inside
`[0, dEnd]`. -/
def ValidR (dEnd : Nat) (r : FCR) : Prop := r.lo ≤ r.hi ∧ r.hi ≤ dEnd

/-- Tightness of a non-unary sparse range, as produced by
`Fragment::compute_fragment_cell_ranges` (tight sparse ranges around the
fragment's tile contents): no physical cell at or after the range start
lies beyond its end. -/
def fcrTight (frags : List Frag) (r : FCR) : Bool :=
  r.lo == r.hi ||
    (match fragLookup frags r.frag with
     | some fr => fr.dense || fr.coords.all (fun c => decide (c < r.lo) || decide (c ≤ r.hi))
     | none => true)

/-- Two ranges of the same fragment do not overlap. -/
def DisjSameFrag (r s : FCR) : Prop :=
  r.frag = s.frag → r.hi < s.lo ∨ s.hi < r.lo

/-- Invariant of the merge queue: sorted by popping precedence, every
range valid over the tile domain and tight, and ranges of the same
fragment pairwise disjoint. -/
def QInv (frags : List Frag) (dEnd : Nat) (q : List FCR) : Prop :=
  q.Pairwise (fun a b => fcrBefore a b = true) ∧
  (∀ r ∈ q, ValidR dEnd r) ∧
  (∀ r ∈ q, fcrTight frags r = true) ∧
  q.Pairwise DisjSameFrag

/-- Transcription of `SmallerFragmentCellRange<T>::operator()`
(lines 1049-1067).  `cmp` is the schema's `cell_order_cmp`; a range is a
fragment id paired with its first and last coordinates.  Only the first
coordinates are compared. -/
def smallerFragmentCellRange {α : Type} (cmp : α → α → Int) (a b : Int × α × α) : Bool :=
  let c := cmp a.2.1 b.2.1
  if c < 0 then false
  else if 0 < c then true
  else decide (a.1 < b.1)

/-- Top of a two-element `std::priority_queue` whose comparator is `lt`:
the maximal element (between comparator-equivalent elements the choice is
unspecified in C++; this model keeps the first). -/
def pqTopPair {β : Type} (lt : β → β → Bool) (x y : β) : β :=
  if lt x y then y else x

/-- Maximum-overlap classification (`FULL` / `PARTIAL_CONTIG` /
`PARTIAL__NON__CONTIG` in the source, the latter two spelled `contig` and
`nonContig` here). -/
inductive OverlapT where
  | full
  | contig
  | nonContig
deriving Repr, DecidableEq

/-- The schema's cell order. -/
inductive CellOrderKind where
  | rowMajor
  | colMajor
deriving Repr, DecidableEq

/-- One dimension of the inputs of `compute_max_overlap_range`: the tile
extent, the global-domain low bound, the current tile coordinate and the
query range on that dimension. -/
structure DimSpec where
  extent : Int
  domLo : Int
  tileC : Int
  rLo : Int
  rHi : Int
deriving Repr, DecidableEq

/-- Per-dimension intersection of the query range with the current tile,
relative to the tile origin (lines 766-772). -/
def maxOverlapDim (d : DimSpec) : Int × Int :=
  let t := d.tileC * d.extent + d.domLo
  (max (d.rLo - t) 0, min (d.rHi - t) (d.extent - 1))

/-- `compute_max_overlap_range` (lines 752-772): the per-dimension
intersections. -/
def compute_max_overlap_range (dims : List DimSpec) : List (Int × Int) :=
  dims.map maxOverlapDim

/-- Whether the intersection spans `[0, e - 1]` on dimension `d`. -/
def dimSpansFull (d : DimSpec) : Bool :=
  let o := maxOverlapDim d
  o.1 == 0 && o.2 == d.extent - 1

/-- The classification part of `compute_max_overlap_range`
(lines 774-805).  The source sets `FULL`, downgrades on the first
non-spanning dimension, then re-checks all dimensions but the first (row
major) or the last (column major); the early-exit loops are equivalent to
the `all` tests used here. -/
def compute_max_overlap_type (order : CellOrderKind) (dims : List DimSpec) : OverlapT :=
  if dims.all dimSpansFull then .full
  else
    match order with
    | .rowMajor => if (dims.drop 1).all dimSpansFull then .contig else .nonContig
    | .colMajor => if (dims.take (dims.length - 1)).all dimSpansFull then .contig else .nonContig

/-- The spec's FULL condition: the intersection spans `[0, e_i - 1]` on
every dimension. -/
def specSpansFull (dims : List DimSpec) : Prop :=
  ∀ i, ∀ _ : i < dims.length, dimSpansFull dims[i] = true

/-- The spec's PARTIAL_CONTIG axis condition: the intersection spans the
full extent on every axis except possibly the first (row major) or the
last (column major). -/
def specContigAxes (order : CellOrderKind) (dims : List DimSpec) : Prop :=
  ∀ i, ∀ _ : i < dims.length,
    (match order with
     | .rowMajor => i ≠ 0
     | .colMajor => i ≠ dims.length - 1) → dimSpansFull dims[i] = true

/-- `clean_up_processed_fragment_cell_pos_ranges` (lines 127-153) over an
abstract plan type `π`: `pos` is `fragment_cell_pos_ranges_vec_pos_`
(one slot per attribute plus one for coordinates), `attribute_ids` the
requested attributes.  Note the transcription of the source's
initialisation `min_pos = fragment_cell_pos_ranges_vec_pos_[0]`: the
initial minimum is read at index `0`, not at `attribute_ids[0]`, and the
scan then covers `attribute_ids[1..]`. -/
def clean_up_processed {π : Type} (attribute_ids : List Nat) (vec : List π) (pos : List Nat) :
    List π × List Nat :=
  let m := (attribute_ids.drop 1).foldl
    (fun m a => if pos.getD a 0 < m then pos.getD a 0 else m) (pos.headD 0)
  if m ≠ 0 then
    (vec.drop m, pos.map (fun p => if p ≠ 0 then p - m else p))
  else (vec, pos)

/-- Entry of a per-tile plan: `(fragment_id, [p0, p1])` cell positions. -/
structure PlanEntry where
  frag : Int
  p0 : Nat
  p1 : Nat
deriving Repr, DecidableEq

/-- Per-attribute streaming state of the read state, single-attribute
view: `vecLen` is the number of per-tile plans computed so far
(`fragment_cell_pos_ranges_vec_.size()`), `vecPos` the attribute's
`fragment_cell_pos_ranges_vec_pos_`, `tileDone`/`ovfl`/`done` the
`tile_done_` / `overflow_` / `done_` flags.  `entryDone` and `cellDone`
are modelled from the spec: the fragment-internal resume position (which
entry of the current plan is the first incomplete one, and how many of
its cells were already copied) that makes a re-entered
`copy_cell_ranges` continue exactly where the previous call stopped. -/
structure AttrState where
  vecLen : Nat
  vecPos : Nat
  entryDone : Nat
  cellDone : Nat
  tileDone : Bool
  ovfl : Bool
  done : Bool
deriving Repr, DecidableEq

/-- The state right after construction (lines 60-79): counters zero,
`tile_done_` true. -/
def initialState : AttrState :=
  ⟨0, 0, 0, 0, true, false, false⟩

/-- `copy_cell_range_with_empty` (lines 155-163): the body is a bare
`TODO` — nothing is written and the buffer offset does not advance. -/
def copy_cell_range_with_empty {α : Type} (out : List α) (off : Nat) : List α × Nat :=
  (out, off)

/-- Modelled from the spec: `Fragment::copy_cell_range` for one plan
entry, copying cell by cell.  Each cell occupies `cellSz` bytes; a cell
is copied only if it fits in the remaining buffer capacity `cap`, and a
cell that does not fit raises the fragment's overflow flag.  Returns the
extended output, the new offset, the number of cells copied and the
overflow flag. -/
def copyCells {α : Type} (cellSz cap : Nat) : List α → List α → Nat → List α × Nat × Nat × Bool
  | [], out, off => (out, off, 0, false)
  | c :: cs, out, off =>
    if off + cellSz ≤ cap then
      match copyCells cellSz cap cs (out ++ [c]) (off + cellSz) with
      | (o, f, k, v) => (o, f, k + 1, v)
    else (out, off, 0, true)

/-- Outcome of the entry loop of `copy_cell_ranges`: the whole plan was
copied, or a fragment raised overflow after `entries` further complete
entries with `ci` cells of the next entry copied, or a fragment call
failed (`TILEDB_FG_OK` not returned). -/
inductive CopyOut (α : Type) where
  | fin (out : List α) (off : Nat)
  | ovf (out : List α) (off : Nat) (entries ci : Nat)
  | err
deriving Repr, DecidableEq

/-- Bump the completed-entry count of an overflow outcome. -/
def bumpEntries {α : Type} : CopyOut α → CopyOut α
  | .ovf o f ed ci => .ovf o f (ed + 1) ci
  | x => x

/-- The entry loop of `copy_cell_ranges` (lines 186-218): an entry with
fragment id `-1` goes through `copy_cell_range_with_empty` (which cannot
overflow), any other entry through the fragment's `copy_cell_range`;
`vals e = none` is a fragment failure (`TILEDB_ARS_ERR`), and a fragment
overflow stops the loop.  `ci` is the resume position inside the first
entry. -/
def copyLoop {α : Type} (cellSz cap : Nat) (vals : PlanEntry → Option (List α)) :
    List PlanEntry → Nat → List α → Nat → CopyOut α
  | [], _, out, off => .fin out off
  | e :: es, ci, out, off =>
    if e.frag = -1 then
      let r := copy_cell_range_with_empty out off
      bumpEntries (copyLoop cellSz cap vals es 0 r.1 r.2)
    else
      match vals e with
      | none => .err
      | some cs =>
        match copyCells cellSz cap (cs.drop ci) out off with
        | (out1, off1, k, v) =>
          if v then .ovf out1 off1 0 (ci + k)
          else bumpEntries (copyLoop cellSz cap vals es 0 out1 off1)

/-- `copy_cell_ranges` (lines 165-237), single-attribute view: copy the
plan at `vecPos` from the resume position; on completion advance
`vecPos`, notify `tile_done` and set `tile_done_`; on overflow record
`overflow_` and keep `vecPos` (lines 220-233).  `none` is
`TILEDB_ARS_ERR`. -/
def copy_cell_ranges {α : Type} (cellSz cap : Nat) (allPlans : List (List PlanEntry))
    (vals : PlanEntry → Option (List α)) (st : AttrState) (out : List α) (off : Nat) :
    Option (AttrState × List α × Nat) :=
  match copyLoop cellSz cap vals ((allPlans.getD st.vecPos []).drop st.entryDone)
      st.cellDone out off with
  | .err => none
  | .fin out1 off1 =>
    some (⟨st.vecLen, st.vecPos + 1, 0, 0, true, st.ovfl, st.done⟩, out1, off1)
  | .ovf out1 off1 ed ci =>
    some (⟨st.vecLen, st.vecPos, st.entryDone + ed, ci, false, true, st.done⟩, out1, off1)

/-- Result of a dense-attribute read call: `TILEDB_ARS_OK` with the final
state, the delivered cells and the rewritten `buffer_size`, or
`TILEDB_ARS_ERR`. -/
inductive ReadRes (α : Type) where
  | ok (st : AttrState) (out : List α) (off : Nat)
  | err
  | fuelOut
deriving Repr, DecidableEq

/-- `get_next_cell_ranges_dense` (lines 507-646), as its effect on the
single-attribute streaming state: the per-tile plan computation is
deterministic and independent of the caller's buffers, so it is modelled
by revealing the next plan of the fixed sequence `allPlans`
(incrementing `vecLen`); when the tile stream is exhausted `done_` is
raised instead. -/
def get_next_cell_ranges_dense (allPlans : List (List PlanEntry)) (st : AttrState) : AttrState :=
  if st.vecLen < allPlans.length then
    ⟨st.vecLen + 1, st.vecPos, st.entryDone, st.cellDone, st.tileDone, st.ovfl, st.done⟩
  else
    ⟨st.vecLen, st.vecPos, st.entryDone, st.cellDone, st.tileDone, st.ovfl, true⟩

/-- The `for(;;)` loop of `read_multiple_fragments_dense_attr<T>`
(lines 966-1020): resume an unfinished tile, return `TILEDB_ARS_OK` with
`buffer_size = buffer_offset` on overflow, otherwise compute the next
per-tile plan when all current plans are consumed, return on `done_`,
copy the new plan, return on overflow. -/
def read_dense_attr {α : Type} (cellSz cap : Nat) (allPlans : List (List PlanEntry))
    (vals : PlanEntry → Option (List α)) :
    Nat → AttrState → List α → Nat → ReadRes α
  | 0, _, _, _ => .fuelOut
  | fuel + 1, st, out, off =>
    match (if st.tileDone = false then copy_cell_ranges cellSz cap allPlans vals st out off
           else some (st, out, off)) with
    | none => .err
    | some (st1, out1, off1) =>
      if st1.ovfl then .ok st1 out1 off1
      else
        let st2 := if st1.vecLen ≤ st1.vecPos then get_next_cell_ranges_dense allPlans st1
          else st1
        if st2.done then .ok st2 out1 off1
        else
          match copy_cell_ranges cellSz cap allPlans vals st2 out1 off1 with
          | none => .err
          | some (st3, out3, off3) =>
            if st3.ovfl then .ok st3 out3 off3
            else read_dense_attr cellSz cap allPlans vals fuel st3 out3 off3

/-- One top-level read call for one attribute: `read_multiple_fragments`
resets `overflow_` and `done_` (lines 108-112) and the attribute is
streamed with a fresh buffer. -/
def readCall {α : Type} (cellSz cap : Nat) (allPlans : List (List PlanEntry))
    (vals : PlanEntry → Option (List α)) (st : AttrState) : ReadRes α :=
  read_dense_attr cellSz cap allPlans vals (allPlans.length + 2)
    { st with ovfl := false, done := false } [] 0

/-- Iterated read calls, concatenating the delivered outputs. -/
def runReads {α : Type} (cellSz cap : Nat) (allPlans : List (List PlanEntry))
    (vals : PlanEntry → Option (List α)) : Nat → AttrState → Option (List α × AttrState)
  | 0, st => some ([], st)
  | k + 1, st =>
    match readCall cellSz cap allPlans vals st with
    | .ok st' out _ =>
      match runReads cellSz cap allPlans vals k st' with
      | some (rest, stf) => some (out ++ rest, stf)
      | none => none
    | _ => none

/-- The cells one plan entry delivers: nothing for an empty-fragment
entry (`copy_cell_range_with_empty` is a TODO), the fragment's cells
otherwise. -/
def entryVals {α : Type} (vals : PlanEntry → Option (List α)) (e : PlanEntry) : List α :=
  if e.frag = -1 then [] else (vals e).getD []

/-- Cells still to be delivered from a plan suffix, starting `ci` cells
into its first entry. -/
def planTailFrom {α : Type} (vals : PlanEntry → Option (List α)) :
    List PlanEntry → Nat → List α
  | [], _ => []
  | e :: es, ci => (entryVals vals e).drop ci ++ (es.map (entryVals vals)).flatten

/-- Cells still to be delivered from a streaming state onward. -/
def remainingAll {α : Type} (allPlans : List (List PlanEntry))
    (vals : PlanEntry → Option (List α)) (st : AttrState) : List α :=
  planTailFrom vals ((allPlans.getD st.vecPos []).drop st.entryDone) st.cellDone ++
    ((allPlans.drop (st.vecPos + 1)).map (fun p => (p.map (entryVals vals)).flatten)).flatten

/-- Well-formedness of a streaming state for a fixed plan sequence. -/
def StWF (allPlans : List (List PlanEntry)) (st : AttrState) : Prop :=
  st.vecPos ≤ st.vecLen ∧ st.vecLen ≤ allPlans.length ∧
  (st.tileDone = true → st.entryDone = 0 ∧ st.cellDone = 0) ∧
  (st.tileDone = false → st.vecPos < st.vecLen) ∧
  (st.done = true → allPlans.length ≤ st.vecPos)

/-- `read_multiple_fragments_dense_attr_var` (lines 1022-1029): the body
is a bare `TODO`; the non-void function returns no status at all.  The
model records the absence of a returned status as `none`. -/
def read_multiple_fragments_dense_attr_var : Option Int := none

/-- `read_multiple_fragments_sparse` (lines 1031-1035): likewise a bare
`TODO` body returning no status. -/
def read_multiple_fragments_sparse : Option Int := none

/-- Row-major lexicographic strict order on tile coordinate vectors: the
first dimension is the most significant.  Modelled from the spec, as
`ArraySchema::tile_order_cmp` is not part of this source file. -/
def tileLexLt : List Int → List Int → Bool
  | x :: xs, y :: ys => decide (x < y) || (decide (x = y) && tileLexLt xs ys)
  | _, _ => false

/-- The global tile order used by the cursor comparisons: row-major
compares with the first dimension most significant, column-major with
the last. -/
def tileOrderLt (order : CellOrderKind) (a b : List Int) : Bool :=
  match order with
  | .rowMajor => tileLexLt a b
  | .colMajor => tileLexLt a.reverse b.reverse

/-- Modelled from the spec: the carry cascade of
`ArraySchema::get_next_tile_coords` (not in this source file) over the
dimensions after the most significant one.  The innermost dimension
receives the initial increment; a dimension whose new value overruns the
domain high end resets to the low end and carries outward.  Returns the
new coordinates and whether a carry leaves the list. -/
def bumpRM : List (Int × Int) → List Int → List Int × Bool
  | [], [] => ([], true)
  | d :: ds, x :: xs =>
    match bumpRM ds xs with
    | (xs2, true) => if d.2 < x + 1 then (d.1 :: xs2, true) else ((x + 1) :: xs2, false)
    | (xs2, false) => (x :: xs2, false)
  | _, _ => ([], false)

/-- Modelled from the spec: `ArraySchema::get_next_tile_coords`.  The
most significant dimension (the first for row major, the last for column
major) absorbs any remaining carry without resetting, exactly like the
`while(i > 0 && ...)` cascade of the source of that function. -/
def nextRM (dom : List (Int × Int)) (c : List Int) : List Int :=
  match dom, c with
  | _ :: ds, x :: xs =>
    match bumpRM ds xs with
    | (xs2, true) => (x + 1) :: xs2
    | (xs2, false) => x :: xs2
  | _, _ => c

/-- Tile-coordinate advance for either cell order: column major is the
row-major cascade on the reversed dimension list. -/
def get_next_tile_coords (order : CellOrderKind) (dom : List (Int × Int))
    (c : List Int) : List Int :=
  match order with
  | .rowMajor => nextRM dom c
  | .colMajor => (nextRM dom.reverse c.reverse).reverse

/-- The in-domain test of `get_next_range_global_tile_coords`
(lines 821-829): every coordinate within its dimension's bounds. -/
def coordsInDomain (dom : List (Int × Int)) (c : List Int) : Bool :=
  (List.zip c dom).all (fun p => decide (p.2.1 ≤ p.1) && decide (p.1 ≤ p.2.2))

/-- `get_next_range_global_tile_coords` (lines 807-833): advance the
range tile coordinates with the schema's `get_next_tile_coords`, then
drop the cursor (`none`) when the new coordinates fall outside the range
tile domain. -/
def get_next_range_global_tile_coords (order : CellOrderKind) (dom : List (Int × Int))
    (c : List Int) : Option (List Int) :=
  let c2 := get_next_tile_coords order dom c
  if coordsInDomain dom c2 then some c2 else none

/-- One dimension of `init_range_global_tile_coords` (lines 835-903):
from `((domain_low, domain_high), extent)` and `(range_low, range_high)`
compute the dimension's range tile interval
`(max((rLo-dLo)/e, 0), min((rHi-dLo)/e, tile_num-1))` and the dimension's
last tile index `tile_num - 1`, with `tile_num = ceil((dHi-dLo+1)/e)`
(integer ceiling; the operands are non-negative for a query range inside
the domain, where C and Lean integer division agree). -/
def initDim (x : ((Int × Int) × Int) × (Int × Int)) : (Int × Int) × Int :=
  let dLo := x.1.1.1
  let dHi := x.1.1.2
  let e := x.1.2
  let tileHi := (dHi - dLo + 1 + e - 1) / e - 1
  ((max ((x.2.1 - dLo) / e) 0, min ((x.2.2 - dLo) / e) tileHi), tileHi)

/-- `init_range_global_tile_coords` (lines 835-903): compute the range
tile domain per dimension; if on some dimension it misses the tile
domain `[0, tile_num-1]` there is no overlapping tile (`none`, the
source frees the coordinates); otherwise the initial cursor position is
the low corner of the range tile domain. -/
def init_range_global_tile_coords (domain : List (Int × Int)) (extents : List Int)
    (range : List (Int × Int)) : Option (List (Int × Int) × List Int) :=
  let ds := (List.zip (List.zip domain extents) range).map initDim
  if ds.all (fun d => decide (d.1.1 ≤ d.2) && decide (0 ≤ d.1.2)) then
    some (ds.map Prod.fst, ds.map (fun d => d.1.1))
  else none

/-- The sequence of tiles the cursor visits: the current position, then
everything reachable by `get_next_range_global_tile_coords` until the
cursor dies, truncated by the fuel. -/
def tileSeq (order : CellOrderKind) (dom : List (Int × Int)) :
    Nat → List Int → List (List Int)
  | 0, c => [c]
  | fuel + 1, c =>
    c :: (match get_next_range_global_tile_coords order dom c with
          | none => []
          | some c2 => tileSeq order dom fuel c2)

/-- The tiles of the whole query range in visiting order:
`init_range_global_tile_coords` followed by the
`get_next_range_global_tile_coords` iteration, as driven by
`get_next_cell_ranges_dense` (lines 514-573). -/
def rangeTileSeq (order : CellOrderKind) (domain : List (Int × Int)) (extents : List Int)
    (range : List (Int × Int)) (fuel : Nat) : List (List Int) :=
  match init_range_global_tile_coords domain extents range with
  | none => []
  | some rc => tileSeq order rc.1 fuel rc.2

/-- The in-tile cells one merged range makes the streamer put into the
caller's buffer: nothing for a `-1` range (`copy_cell_range_with_empty`
is an unimplemented TODO, claim C1), otherwise the covered cells — all
interval cells for a dense fragment, the physical ones for a sparse
fragment (`get_cell_pos_ranges_sparse` composed with the fragment
copy). -/
def streamCells (frags : List Frag) (dEnd : Nat) (r : FCR) : List Nat :=
  if r.frag = -1 then [] else (List.range (dEnd + 1)).filter (coversCell frags r)

/-- Conversion of one merged range of the tile of visiting rank `i` to a
plan entry (lines 458-505 compose the tile-local normalisation with the
position inside the tile; the model indexes cells by their global
linearised position, visiting rank times tile size plus in-tile
position, which is faithful because one plan is consumed per tile in
visiting order). -/
def toEntry (dEnd i : Nat) (r : FCR) : PlanEntry :=
  ⟨r.frag, i * (dEnd + 1) + r.lo, i * (dEnd + 1) + r.hi⟩

/-- The plan sequence `fragment_cell_pos_ranges_vec_` built by
`get_next_cell_ranges_dense` (`push_back`, line 639): one per-tile plan
per cursor tile, appended in visiting order. -/
def plansOf (dEnd : Nat) (outs : Nat → List FCR) (n : Nat) : List (List PlanEntry) :=
  (List.range n).map (fun i => (outs i).map (toEntry dEnd i))

/-- Modelled from the spec: the fragment copy of one plan entry delivers
the covered cells of its range, identified here by their global
linearised positions (the tile rank and the in-tile interval are
recovered from the entry's global endpoints). -/
def valsGlobal (fragsAt : Nat → List Frag) (dEnd : Nat) (e : PlanEntry) :
    Option (List Nat) :=
  let i := e.p0 / (dEnd + 1)
  some (((List.range (dEnd + 1)).filter
    (coversCell (fragsAt i) ⟨e.frag, e.p0 % (dEnd + 1), e.p1 - i * (dEnd + 1)⟩)).map
    (fun p => i * (dEnd + 1) + p))

/-- The global cell-position sequence the whole dense read delivers for
one attribute: tile by tile in visiting order, inside each tile the
cells of the merged ranges in emission order. -/
def globalStream (fragsAt : Nat → List Frag) (dEnd : Nat) (outs : Nat → List FCR)
    (n : Nat) : List Nat :=
  ((List.range n).map (fun i =>
    (((outs i).map (streamCells (fragsAt i) dEnd)).flatten).map
      (fun p => i * (dEnd + 1) + p))).flatten

/-! Theorems. -/

theorem all_iff_getElem {β : Type} (l : List β) (p : β → Bool) :
    l.all p = true ↔ ∀ i, ∀ _ : i < l.length, p l[i] = true := by
  rw [List.all_eq_true]
  constructor
  · intro h i hi
    exact h _ (List.getElem_mem hi)
  · intro h x hx
    obtain ⟨i, hi, rfl⟩ := List.mem_iff_getElem.mp hx
    exact h i hi

/-- Claim C6: `compute_max_overlap_range` classifies the intersection as
FULL exactly when it spans `[0, e_i - 1]` on every dimension; otherwise
as PARTIAL_CONTIG exactly when it spans the full extent on every axis
except possibly the first (row major) or the last (column major); and as
PARTIAL_NON_CONTIG in all remaining cases. -/
theorem dropOne_all_iff_contigAxes (dims : List DimSpec) :
    (dims.drop 1).all dimSpansFull = true ↔ specContigAxes .rowMajor dims := by
  rw [all_iff_getElem]
  unfold specContigAxes
  constructor
  · intro h i hi hne
    have hne' : i ≠ 0 := by simpa using hne
    have hlt : i - 1 < (dims.drop 1).length := by
      simp only [List.length_drop]; omega
    have h2 := h (i - 1) hlt
    rw [List.getElem_drop] at h2
    have hidx : 1 + (i - 1) = i := by omega
    rw [getElem_congr hidx] at h2
    exact h2
  · intro h j hj
    rw [List.getElem_drop]
    have hlen : j < (dims.drop 1).length := hj
    simp only [List.length_drop] at hlen
    exact h (1 + j) (by omega) (by simp)

theorem takeInit_all_iff_contigAxes (dims : List DimSpec) :
    (dims.take (dims.length - 1)).all dimSpansFull = true ↔ specContigAxes .colMajor dims := by
  rw [all_iff_getElem]
  unfold specContigAxes
  constructor
  · intro h i hi hne
    have hne' : i ≠ dims.length - 1 := by simpa using hne
    have hlt : i < (dims.take (dims.length - 1)).length := by
      simp only [List.length_take]; omega
    have := h i hlt
    rwa [List.getElem_take] at this
  · intro h j hj
    have hlen : j < (dims.take (dims.length - 1)).length := hj
    simp only [List.length_take] at hlen
    rw [List.getElem_take]
    exact h j (by omega) (by simp; omega)

/-- Claim C6: `compute_max_overlap_range` classifies the intersection as
FULL exactly when it spans `[0, e_i - 1]` on every dimension; otherwise
as PARTIAL_CONTIG exactly when it spans the full extent on every axis
except possibly the first (row major) or the last (column major); and as
PARTIAL_NON_CONTIG in all remaining cases. -/
theorem c6_overlap_classification (order : CellOrderKind) (dims : List DimSpec) :
    (compute_max_overlap_type order dims = .full ↔ specSpansFull dims) ∧
    (compute_max_overlap_type order dims = .contig ↔
      ¬ specSpansFull dims ∧ specContigAxes order dims) ∧
    (compute_max_overlap_type order dims = .nonContig ↔
      ¬ specSpansFull dims ∧ ¬ specContigAxes order dims) := by
  have hfull : dims.all dimSpansFull = true ↔ specSpansFull dims :=
    all_iff_getElem dims dimSpansFull
  have haxes : ∀ b : Bool, ∀ hax : b = true ↔ specContigAxes order dims,
      ¬ dims.all dimSpansFull = true →
      ((if dims.all dimSpansFull then OverlapT.full
        else if b then OverlapT.contig else OverlapT.nonContig) = OverlapT.full ↔
          specSpansFull dims) ∧
      ((if dims.all dimSpansFull then OverlapT.full
        else if b then OverlapT.contig else OverlapT.nonContig) = OverlapT.contig ↔
          ¬ specSpansFull dims ∧ specContigAxes order dims) ∧
      ((if dims.all dimSpansFull then OverlapT.full
        else if b then OverlapT.contig else OverlapT.nonContig) = OverlapT.nonContig ↔
          ¬ specSpansFull dims ∧ ¬ specContigAxes order dims) := by
    intro b hax hf
    have hns : ¬ specSpansFull dims := fun hs => hf (hfull.mpr hs)
    rw [if_neg hf]
    by_cases hb : b = true
    · rw [if_pos hb]
      have hc := hax.mp hb
      refine ⟨⟨fun h => OverlapT.noConfusion h, fun hs => absurd hs hns⟩,
        ⟨fun _ => ⟨hns, hc⟩, fun _ => rfl⟩,
        ⟨fun h => OverlapT.noConfusion h, ?_⟩⟩
      rintro ⟨-, hnc⟩
      exact absurd hc hnc
    · rw [if_neg hb]
      have hnc : ¬ specContigAxes order dims := fun hs => hb (hax.mpr hs)
      refine ⟨⟨fun h => OverlapT.noConfusion h, fun hs => absurd hs hns⟩,
        ⟨fun h => OverlapT.noConfusion h, ?_⟩,
        ⟨fun _ => ⟨hns, hnc⟩, fun _ => rfl⟩⟩
      rintro ⟨-, hc⟩
      exact absurd hc hnc
  by_cases hf : dims.all dimSpansFull = true
  · have hres : compute_max_overlap_type order dims = .full := by
      unfold compute_max_overlap_type
      rw [if_pos hf]
    rw [hres]
    refine ⟨by simp [hfull.mp hf], ?_, ?_⟩
    · constructor
      · intro h; cases h
      · rintro ⟨hns, -⟩; exact absurd (hfull.mp hf) hns
    · constructor
      · intro h; cases h
      · rintro ⟨hns, -⟩; exact absurd (hfull.mp hf) hns
  · cases order with
    | rowMajor =>
      have hdef : compute_max_overlap_type .rowMajor dims =
          (if dims.all dimSpansFull then OverlapT.full
           else if (dims.drop 1).all dimSpansFull then OverlapT.contig
           else OverlapT.nonContig) := rfl
      rw [hdef]
      exact haxes _ (dropOne_all_iff_contigAxes dims) hf
    | colMajor =>
      have hdef : compute_max_overlap_type .colMajor dims =
          (if dims.all dimSpansFull then OverlapT.full
           else if (dims.take (dims.length - 1)).all dimSpansFull then OverlapT.contig
           else OverlapT.nonContig) := rfl
      rw [hdef]
      exact haxes _ (takeInit_all_iff_contigAxes dims) hf

/-- Claim C3: the merge-heap comparator realises the order: when the
`cell_order_cmp` of the first endpoints is non-zero, the range whose
first endpoint is earlier pops first (under either insertion order);
when the first endpoints compare equal, the range with the higher
fragment id pops first. -/
theorem c3_comparator_pop_order {α : Type} (cmp : α → α → Int) (fa fb : Int) (ra rb : α × α) :
    (cmp ra.1 rb.1 < 0 → 0 < cmp rb.1 ra.1 →
      pqTopPair (smallerFragmentCellRange cmp) (fa, ra) (fb, rb) = (fa, ra) ∧
      pqTopPair (smallerFragmentCellRange cmp) (fb, rb) (fa, ra) = (fa, ra)) ∧
    (cmp ra.1 rb.1 = 0 → cmp rb.1 ra.1 = 0 → fb < fa →
      pqTopPair (smallerFragmentCellRange cmp) (fa, ra) (fb, rb) = (fa, ra) ∧
      pqTopPair (smallerFragmentCellRange cmp) (fb, rb) (fa, ra) = (fa, ra)) := by
  constructor
  · intro h1 h2
    constructor
    · simp [pqTopPair, smallerFragmentCellRange, h1]
    · simp [pqTopPair, smallerFragmentCellRange, h2, not_lt_of_gt h2]
  · intro h1 h2 h3
    constructor
    · simp [pqTopPair, smallerFragmentCellRange, h1, not_lt_of_le (le_of_lt h3)]
    · simp [pqTopPair, smallerFragmentCellRange, h2, h3]

theorem c3_comparator_pop_order_witness :
    (pqTopPair (smallerFragmentCellRange (fun x y : Int => x - y)) (9, (0, 0)) (1, (5, 5)) =
        (9, (0, 0)) ∧
      pqTopPair (smallerFragmentCellRange (fun x y : Int => x - y)) (1, (5, 5)) (9, (0, 0)) =
        (9, (0, 0))) ∧
    (pqTopPair (smallerFragmentCellRange (fun x y : Int => x - y)) (9, (2, 3)) (1, (2, 9)) =
        (9, (2, 3)) ∧
      pqTopPair (smallerFragmentCellRange (fun x y : Int => x - y)) (1, (2, 9)) (9, (2, 3)) =
        (9, (2, 3))) :=
  ⟨(@c3_comparator_pop_order Int (fun x y => x - y) 9 1 (0, 0) (5, 5)).1 (by decide) (by decide),
   (@c3_comparator_pop_order Int (fun x y => x - y) 9 1 (2, 3) (2, 9)).2 (by decide) (by decide)
     (by decide)⟩

/-- Claim C7: the clean-up step does not remove every plan completed for
all requested attributes.  With attributes `{0, 1}` plus the coordinate
slot and only attribute `1` requested, attribute `1` has advanced past
the single stored plan, yet `clean_up_processed` removes nothing: the
initial minimum is read at position index `0` (an unrequested
attribute, whose position never advances) instead of
`attribute_ids[0]`. -/
theorem c7_cleanup_min_pos_bug :
    [1].all (fun a => 1 ≤ [0, 1, 0].getD a 0) = true ∧
    clean_up_processed [1] [()] [0, 1, 0] = ([()], [0, 1, 0]) := by decide

/-- Claim C8: in the trivial-emptiness case of the merge, a popped unary
sparse range whose coordinate does not exist is indeed discarded, but
the code first falls through to `top = pq.top()` on the now-empty heap
(line 296): the `ubRead` flag of the result is set. -/
theorem c8_empty_heap_read_on_sparse_unary :
    mergeModel [⟨false, []⟩] 9 5 [⟨0, 3, 3⟩] = .ok [] true := by rfl

/-- Claim C10: when the inner discard loop pops the last element of the
heap, the immediately following `top = pq.top()` (line 352) reads the
top of the empty heap before the loop condition is re-evaluated: the
`ubRead` flag of the result is set on a two-fragment dense input. -/
theorem c10_inner_loop_empty_top_read :
    mergeModel [⟨true, []⟩, ⟨true, []⟩] 9 5 [⟨1, 0, 5⟩, ⟨0, 2, 4⟩] = .ok [⟨1, 0, 5⟩] true := by
  rfl

/-- Claim C9: the variable-length dense read and the sparse top-level
read have bare `TODO` bodies; no status value (in particular no
"unsupported" error) is returned. -/
theorem c9_stubs_return_nothing :
    read_multiple_fragments_sparse = none ∧ read_multiple_fragments_dense_attr_var = none :=
  ⟨rfl, rfl⟩

/-- Claim C1: a per-tile plan whose single entry is the empty-fragment
range `(-1, [0, 4])` (five cells covered by no fragment) delivers no
bytes at all: `copy_cell_range_with_empty` is an unimplemented TODO, so
no fill values are produced and `buffer_size` is rewritten to `0`. -/
theorem c1_empty_fill_unimplemented :
    readCall 4 100 [[⟨-1, 0, 4⟩]] (fun _ => some [7, 7, 7, 7, 7]) initialState =
      .ok ⟨1, 1, 0, 0, true, false, true⟩ ([] : List Nat) 0 := by rfl

theorem copyCells_spec {α : Type} (cellSz cap : Nat) (cs : List α) :
    ∀ (out : List α) (off : Nat),
    ∃ k, k ≤ cs.length ∧
      copyCells cellSz cap cs out off =
        (out ++ cs.take k, off + cellSz * k, k, decide (k < cs.length)) ∧
      (k < cs.length → cap < off + cellSz * k + cellSz) ∧
      (1 ≤ k → off + cellSz * k ≤ cap) := by
  induction cs with
  | nil =>
    intro out off
    refine ⟨0, Nat.le_refl 0, ?_, ?_, ?_⟩
    · simp [copyCells]
    · intro h; simp at h
    · intro h; omega
  | cons c cs ih =>
    intro out off
    by_cases hfit : off + cellSz ≤ cap
    · obtain ⟨k, hk, heq, hov, hle⟩ := ih (out ++ [c]) (off + cellSz)
      refine ⟨k + 1, by simp; omega, ?_, ?_, ?_⟩
      · show copyCells cellSz cap (c :: cs) out off = _
        simp only [copyCells, if_pos hfit, heq]
        refine congrArg₂ Prod.mk ?_ (congrArg₂ Prod.mk ?_ (congrArg₂ Prod.mk rfl ?_))
        · simp
        · rw [Nat.mul_succ]; omega
        · refine decide_eq_decide.mpr ?_
          simp only [List.length_cons]
          omega
      · intro hlt
        have := hov (by simpa using Nat.lt_of_succ_lt_succ (by simpa using hlt))
        rw [Nat.mul_succ]
        omega
      · intro _
        rcases Nat.eq_zero_or_pos k with hk0 | hk1
        · subst hk0; rw [Nat.mul_succ]; omega
        · have := hle hk1; rw [Nat.mul_succ]; omega
    · refine ⟨0, by omega, ?_, ?_, ?_⟩
      · simp [copyCells, if_neg hfit]
      · intro _; omega
      · intro h; omega

theorem planTailFrom_zero {α : Type} (vals : PlanEntry → Option (List α)) (es : List PlanEntry) :
    planTailFrom vals es 0 = (es.map (entryVals vals)).flatten := by
  cases es <;> simp [planTailFrom]

theorem planTailFrom_cons {α : Type} (vals : PlanEntry → Option (List α)) (e : PlanEntry)
    (es : List PlanEntry) (ci : Nat) :
    planTailFrom vals (e :: es) ci =
      (entryVals vals e).drop ci ++ (es.map (entryVals vals)).flatten := rfl

theorem copyLoop_spec {α : Type} (cellSz cap : Nat) (vals : PlanEntry → Option (List α)) :
    ∀ (es : List PlanEntry) (ci : Nat) (out : List α) (off : Nat),
    (∀ e ∈ es, e.frag = -1 ∨ vals e ≠ none) →
    (copyLoop cellSz cap vals es ci out off = .err → False) ∧
    (∀ out1 off1, copyLoop cellSz cap vals es ci out off = .fin out1 off1 →
      out1 = out ++ planTailFrom vals es ci ∧
      off1 = off + cellSz * (planTailFrom vals es ci).length ∧
      (off1 ≤ cap ∨ off1 = off)) ∧
    (∀ out1 off1 ed ci1, copyLoop cellSz cap vals es ci out off = .ovf out1 off1 ed ci1 →
      ∃ d, out1 = out ++ d ∧ off1 = off + cellSz * d.length ∧
        d ++ planTailFrom vals (es.drop ed) ci1 = planTailFrom vals es ci ∧
        planTailFrom vals (es.drop ed) ci1 ≠ [] ∧ cap < off1 + cellSz ∧
        (off1 ≤ cap ∨ off1 = off)) := by
  intro es
  induction es with
  | nil =>
    intro ci out off _
    refine ⟨?_, ?_, ?_⟩
    · intro h; simp [copyLoop] at h
    · intro out1 off1 h
      have h1 : out = out1 ∧ off = off1 := by
        simpa [copyLoop] using h
      obtain ⟨rfl, rfl⟩ := h1
      simp [planTailFrom]
    · intro out1 off1 ed ci1 h
      simp [copyLoop] at h
  | cons e es ih =>
    intro ci out off hv
    have hv' : ∀ e' ∈ es, e'.frag = -1 ∨ vals e' ≠ none :=
      fun e' he' => hv e' (List.mem_cons_of_mem _ he')
    by_cases hfrag : e.frag = -1
    · have hev : entryVals vals e = [] := by simp [entryVals, hfrag]
      have hpt : planTailFrom vals (e :: es) ci = planTailFrom vals es 0 := by
        rw [planTailFrom_cons, hev, planTailFrom_zero]
        simp
      have hred : copyLoop cellSz cap vals (e :: es) ci out off =
          bumpEntries (copyLoop cellSz cap vals es 0 out off) := by
        simp [copyLoop, hfrag, copy_cell_range_with_empty]
      obtain ⟨ihe, ihf, iho⟩ := ih 0 out off hv'
      rw [hred]
      cases hc : copyLoop cellSz cap vals es 0 out off with
      | err => exact absurd hc (fun h => ihe h)
      | fin o f =>
        refine ⟨?_, ?_, ?_⟩
        · intro h; simp [bumpEntries] at h
        · intro out1 off1 h
          have h1 : o = out1 ∧ f = off1 := by simpa [bumpEntries] using h
          obtain ⟨rfl, rfl⟩ := h1
          rw [hpt]
          exact ihf _ _ hc
        · intro out1 off1 ed ci1 h
          simp [bumpEntries] at h
      | ovf o f ed' ci' =>
        refine ⟨?_, ?_, ?_⟩
        · intro h; simp [bumpEntries] at h
        · intro out1 off1 h
          simp [bumpEntries] at h
        · intro out1 off1 ed ci1 h
          have h1 : o = out1 ∧ f = off1 ∧ ed' + 1 = ed ∧ ci' = ci1 := by
            simpa [bumpEntries] using h
          obtain ⟨rfl, rfl, hed, rfl⟩ := h1
          obtain ⟨d, hd1, hd2, hd3, hd4, hd5, hd6⟩ := iho _ _ _ _ hc
          refine ⟨d, hd1, hd2, ?_, ?_, hd5, hd6⟩
          · rw [← hed, List.drop_succ_cons, hpt]
            exact hd3
          · rw [← hed, List.drop_succ_cons]
            exact hd4
    · cases hve : vals e with
      | none =>
        refine ⟨?_, ?_, ?_⟩
        · intro _
          rcases hv e (List.mem_cons_self e es) with h | h
          · exact hfrag h
          · exact h hve
        · intro out1 off1 h
          simp [copyLoop, hfrag, hve] at h
        · intro out1 off1 ed ci1 h
          simp [copyLoop, hfrag, hve] at h
      | some cs =>
        have hev : entryVals vals e = cs := by simp [entryVals, hfrag, hve]
        obtain ⟨k, hk, heq, hov, hle⟩ := copyCells_spec cellSz cap (cs.drop ci) out off
        have hred : copyLoop cellSz cap vals (e :: es) ci out off =
            (if k < (cs.drop ci).length then
              CopyOut.ovf (out ++ (cs.drop ci).take k) (off + cellSz * k) 0 (ci + k)
             else bumpEntries (copyLoop cellSz cap vals es 0 (out ++ (cs.drop ci).take k)
              (off + cellSz * k))) := by
          simp only [copyLoop, if_neg hfrag, hve, heq]
          by_cases hklt : k < (cs.drop ci).length
          · rw [if_pos (decide_eq_true hklt), if_pos hklt]
          · rw [if_neg ?_, if_neg hklt]
            simpa using hklt
        by_cases hklt : k < (cs.drop ci).length
        · rw [hred, if_pos hklt]
          refine ⟨?_, ?_, ?_⟩
          · intro h; exact CopyOut.noConfusion h
          · intro out1 off1 h
            exact CopyOut.noConfusion h
          · intro out1 off1 ed ci1 h
            have h1 : out ++ (cs.drop ci).take k = out1 ∧ off + cellSz * k = off1 ∧
                0 = ed ∧ ci + k = ci1 := by
              simpa using h
            obtain ⟨rfl, rfl, hed, rfl⟩ := h1
            refine ⟨(cs.drop ci).take k, rfl, by rw [List.length_take, Nat.min_eq_left hk],
              ?_, ?_, ?_, ?_⟩
            · rw [← hed, List.drop_zero, planTailFrom_cons, planTailFrom_cons, hev,
                ← List.append_assoc]
              have hdd : cs.drop (ci + k) = (cs.drop ci).drop k := by
                rw [List.drop_drop, Nat.add_comm]
              rw [hdd, List.take_append_drop]
            · rw [← hed, List.drop_zero, planTailFrom_cons, hev]
              intro hnil
              rw [List.append_eq_nil] at hnil
              have hdd : cs.drop (ci + k) = (cs.drop ci).drop k := by
                rw [List.drop_drop, Nat.add_comm]
              rw [hdd] at hnil
              have hlen := congrArg List.length hnil.1
              simp only [List.length_drop, List.length_nil] at hlen
              simp only [List.length_drop] at hklt
              omega
            · have := hov hklt
              omega
            · rcases Nat.eq_zero_or_pos k with hk0 | hk1
              · subst hk0; right; simp
              · left; exact hle hk1
        · have hkeq : k = (cs.drop ci).length := by omega
          have htake : (cs.drop ci).take k = cs.drop ci := by
            rw [hkeq, List.take_length]
          rw [hred, if_neg hklt, htake]
          obtain ⟨ihe, ihf, iho⟩ := ih 0 (out ++ cs.drop ci) (off + cellSz * k) hv'
          have hoffd : off + cellSz * k ≤ cap ∨ off + cellSz * k = off := by
            rcases Nat.eq_zero_or_pos k with hk0 | hk1
            · subst hk0; right; simp
            · left; exact hle hk1
          cases hc : copyLoop cellSz cap vals es 0 (out ++ cs.drop ci) (off + cellSz * k) with
          | err => exact absurd hc (fun h => ihe h)
          | fin o f =>
            refine ⟨?_, ?_, ?_⟩
            · intro h; simp [bumpEntries] at h
            · intro out1 off1 h
              have h1 : o = out1 ∧ f = off1 := by simpa [bumpEntries] using h
              obtain ⟨rfl, rfl⟩ := h1
              obtain ⟨ho, hf, hdisj⟩ := ihf _ _ hc
              refine ⟨?_, ?_, ?_⟩
              · rw [ho, planTailFrom_cons, hev, ← planTailFrom_zero, List.append_assoc]
              · rw [hf, planTailFrom_cons, hev, planTailFrom_zero, List.length_append, hkeq]
                ring
              · rcases hdisj with h1 | h1
                · left; exact h1
                · rw [h1]
                  exact hoffd
            · intro out1 off1 ed ci1 h
              simp [bumpEntries] at h
          | ovf o f ed' ci' =>
            refine ⟨?_, ?_, ?_⟩
            · intro h; simp [bumpEntries] at h
            · intro out1 off1 h
              simp [bumpEntries] at h
            · intro out1 off1 ed ci1 h
              have h1 : o = out1 ∧ f = off1 ∧ ed' + 1 = ed ∧ ci' = ci1 := by
                simpa [bumpEntries] using h
              obtain ⟨rfl, rfl, hed, rfl⟩ := h1
              obtain ⟨d, hd1, hd2, hd3, hd4, hd5, hd6⟩ := iho _ _ _ _ hc
              refine ⟨cs.drop ci ++ d, ?_, ?_, ?_, ?_, hd5, ?_⟩
              · rw [hd1, List.append_assoc]
              · rw [hd2, List.length_append, hkeq]
                ring
              · rw [← hed, List.drop_succ_cons, planTailFrom_cons, hev, List.append_assoc, hd3,
                  planTailFrom_zero]
              · rw [← hed, List.drop_succ_cons]
                exact hd4
              · rcases hd6 with h1 | h1
                · left; exact h1
                · rw [h1]; exact hoffd

theorem flatten_drop_step {α : Type} (allPlans : List (List PlanEntry))
    (vals : PlanEntry → Option (List α)) (n : Nat) :
    ((allPlans.drop n).map (fun p => (p.map (entryVals vals)).flatten)).flatten =
      ((allPlans.getD n []).map (entryVals vals)).flatten ++
      ((allPlans.drop (n + 1)).map (fun p => (p.map (entryVals vals)).flatten)).flatten := by
  by_cases h : n < allPlans.length
  · rw [List.drop_eq_getElem_cons h, List.map_cons, List.flatten_cons]
    have hg : allPlans.getD n [] = allPlans[n] := by
      simp [List.getD_eq_getElem?_getD, List.getElem?_eq_getElem h]
    rw [hg]
  · have hge : allPlans.length ≤ n := by omega
    rw [List.drop_eq_nil_of_le hge, List.drop_eq_nil_of_le (by omega)]
    have hg : allPlans.getD n [] = [] := by
      simp [List.getD_eq_getElem?_getD, List.getElem?_eq_none hge]
    rw [hg]
    simp

theorem remainingAll_done {α : Type} (allPlans : List (List PlanEntry))
    (vals : PlanEntry → Option (List α)) (st : AttrState)
    (h : allPlans.length ≤ st.vecPos) :
    remainingAll allPlans vals st = [] := by
  unfold remainingAll
  have hg : allPlans.getD st.vecPos [] = [] := by
    simp [List.getD_eq_getElem?_getD, List.getElem?_eq_none h]
  rw [hg, List.drop_eq_nil_of_le (show allPlans.length ≤ st.vecPos + 1 by omega)]
  simp [planTailFrom]

theorem remainingAll_flags {α : Type} (allPlans : List (List PlanEntry))
    (vals : PlanEntry → Option (List α)) (st : AttrState) (td ov dn : Bool) (vl : Nat) :
    remainingAll allPlans vals ⟨vl, st.vecPos, st.entryDone, st.cellDone, td, ov, dn⟩ =
      remainingAll allPlans vals st := rfl

theorem copy_cell_ranges_spec {α : Type} (cellSz cap : Nat) (allPlans : List (List PlanEntry))
    (vals : PlanEntry → Option (List α)) (st : AttrState) (out : List α) (off : Nat)
    (hv : ∀ p ∈ allPlans, ∀ e ∈ p, e.frag = -1 ∨ vals e ≠ none)
    (hwf : StWF allPlans st) (hlt : st.vecPos < st.vecLen) :
    (copy_cell_ranges cellSz cap allPlans vals st out off = none → False) ∧
    (∀ st1 out1 off1,
      copy_cell_ranges cellSz cap allPlans vals st out off = some (st1, out1, off1) →
      ∃ d, out1 = out ++ d ∧ off1 = off + cellSz * d.length ∧
        d ++ remainingAll allPlans vals st1 = remainingAll allPlans vals st ∧
        st1.vecLen = st.vecLen ∧ st1.done = st.done ∧ (off1 ≤ cap ∨ off1 = off) ∧
        StWF allPlans st1 ∧
        ((st1.ovfl = true ∧ st1.tileDone = false ∧ st1.vecPos = st.vecPos ∧
            remainingAll allPlans vals st1 ≠ [] ∧ cap < off1 + cellSz) ∨
          (st1.ovfl = st.ovfl ∧ st1.tileDone = true ∧ st1.vecPos = st.vecPos + 1))) := by
  have hv' : ∀ e ∈ (allPlans.getD st.vecPos []).drop st.entryDone,
      e.frag = -1 ∨ vals e ≠ none := by
    intro e he
    have he2 : e ∈ allPlans.getD st.vecPos [] := List.mem_of_mem_drop he
    by_cases h : st.vecPos < allPlans.length
    · have hg : allPlans.getD st.vecPos [] = allPlans[st.vecPos] := by
        simp [List.getD_eq_getElem?_getD, List.getElem?_eq_getElem h]
      rw [hg] at he2
      exact hv _ (List.getElem_mem h) e he2
    · have hg : allPlans.getD st.vecPos [] = [] := by
        simp [List.getD_eq_getElem?_getD, List.getElem?_eq_none (by omega : allPlans.length ≤ st.vecPos)]
      rw [hg] at he2
      cases he2
  obtain ⟨hle, hff, hoo⟩ := copyLoop_spec cellSz cap vals
    ((allPlans.getD st.vecPos []).drop st.entryDone) st.cellDone out off hv'
  constructor
  · intro h
    unfold copy_cell_ranges at h
    cases hc : copyLoop cellSz cap vals ((allPlans.getD st.vecPos []).drop st.entryDone)
        st.cellDone out off with
    | err => exact hle hc
    | fin o f => rw [hc] at h; cases h
    | ovf o f ed ci => rw [hc] at h; cases h
  · intro st1 out1 off1 h
    unfold copy_cell_ranges at h
    cases hc : copyLoop cellSz cap vals ((allPlans.getD st.vecPos []).drop st.entryDone)
        st.cellDone out off with
    | err => exact absurd hc (fun hcc => hle hcc)
    | fin o f =>
      rw [hc] at h
      have h1 : (⟨st.vecLen, st.vecPos + 1, 0, 0, true, st.ovfl, st.done⟩ : AttrState) = st1 ∧
          o = out1 ∧ f = off1 := by
        simpa using h
      obtain ⟨hst, rfl, rfl⟩ := h1
      obtain ⟨ho, hf, hdisj⟩ := hff _ _ hc
      subst hst
      refine ⟨planTailFrom vals ((allPlans.getD st.vecPos []).drop st.entryDone) st.cellDone,
        ho, hf, ?_, rfl, rfl, hdisj, ?_, ?_⟩
      · show _ ++ remainingAll allPlans vals _ = remainingAll allPlans vals st
        unfold remainingAll
        simp only [List.drop_zero]
        rw [planTailFrom_zero, ← flatten_drop_step]
      · obtain ⟨h1, h2, h3, h4, h5⟩ := hwf
        refine ⟨by simpa using hlt, by simpa using h2, by simp, by simp, ?_⟩
        intro hd
        have hstd : st.done = true := by simpa using hd
        have := h5 hstd
        simp only
        omega
      · right
        exact ⟨rfl, rfl, rfl⟩
    | ovf o f ed ci =>
      rw [hc] at h
      have h1 : (⟨st.vecLen, st.vecPos, st.entryDone + ed, ci, false, true, st.done⟩ :
          AttrState) = st1 ∧ o = out1 ∧ f = off1 := by
        simpa using h
      obtain ⟨hst, rfl, rfl⟩ := h1
      obtain ⟨d, hd1, hd2, hd3, hd4, hd5, hd6⟩ := hoo _ _ _ _ hc
      subst hst
      have hdrop : (allPlans.getD st.vecPos []).drop (st.entryDone + ed) =
          ((allPlans.getD st.vecPos []).drop st.entryDone).drop ed := by
        rw [List.drop_drop, Nat.add_comm]
      refine ⟨d, hd1, hd2, ?_, rfl, rfl, hd6, ?_, ?_⟩
      · show d ++ remainingAll allPlans vals _ = remainingAll allPlans vals st
        unfold remainingAll
        simp only
        rw [hdrop, ← List.append_assoc, hd3]
      · obtain ⟨h1, h2, h3, h4, h5⟩ := hwf
        exact ⟨by simpa using h1, by simpa using h2, by simp, fun _ => by simpa using hlt,
          fun hd => by simp at hd; exact h5 hd⟩
      · left
        refine ⟨rfl, rfl, rfl, ?_, hd5⟩
        show remainingAll allPlans vals _ ≠ []
        unfold remainingAll
        simp only
        rw [hdrop]
        intro hnil
        rw [List.append_eq_nil] at hnil
        exact hd4 hnil.1

theorem get_next_spec {α : Type} (allPlans : List (List PlanEntry))
    (vals : PlanEntry → Option (List α)) (st : AttrState)
    (hwf : StWF allPlans st) (hvl : st.vecLen ≤ st.vecPos) :
    remainingAll allPlans vals (get_next_cell_ranges_dense allPlans st) =
      remainingAll allPlans vals st ∧
    StWF allPlans (get_next_cell_ranges_dense allPlans st) ∧
    (get_next_cell_ranges_dense allPlans st).ovfl = st.ovfl ∧
    (get_next_cell_ranges_dense allPlans st).tileDone = st.tileDone ∧
    ((get_next_cell_ranges_dense allPlans st).done = false →
      (get_next_cell_ranges_dense allPlans st).vecPos <
        (get_next_cell_ranges_dense allPlans st).vecLen) ∧
    ((get_next_cell_ranges_dense allPlans st).done = true →
      remainingAll allPlans vals (get_next_cell_ranges_dense allPlans st) = []) := by
  obtain ⟨h1, h2, h3, h4, h5⟩ := hwf
  unfold get_next_cell_ranges_dense
  by_cases hlen : st.vecLen < allPlans.length
  · rw [if_pos hlen]
    refine ⟨rfl, ⟨by simp; omega, by simpa using hlen, by simpa using h3, ?_, ?_⟩, rfl, rfl,
      ?_, ?_⟩
    · intro _; simp; omega
    · intro hd
      have := h5 (by simpa using hd)
      simp
      omega
    · intro _; simp; omega
    · intro hd
      apply remainingAll_done
      have := h5 (by simpa using hd)
      simpa using this
  · rw [if_neg hlen]
    have hveq : st.vecLen = allPlans.length := by omega
    refine ⟨rfl, ⟨by simpa using h1, by simpa using h2, by simpa using h3, ?_, ?_⟩, rfl, rfl,
      ?_, ?_⟩
    · intro htd
      exact absurd (h4 (by simpa using htd)) (by omega)
    · intro _
      simp
      omega
    · intro hd; simp at hd
    · intro _
      apply remainingAll_done
      simp
      omega

theorem read_attr_spec {α : Type} (cellSz cap : Nat) (allPlans : List (List PlanEntry))
    (vals : PlanEntry → Option (List α))
    (hv : ∀ p ∈ allPlans, ∀ e ∈ p, e.frag = -1 ∨ vals e ≠ none) :
    ∀ fuel (st : AttrState) (out : List α) (off : Nat), StWF allPlans st → st.ovfl = false →
    (read_dense_attr cellSz cap allPlans vals fuel st out off = .err → False) ∧
    (∀ st' out' off',
      read_dense_attr cellSz cap allPlans vals fuel st out off = .ok st' out' off' →
      ∃ d, out' = out ++ d ∧ off' = off + cellSz * d.length ∧
        d ++ remainingAll allPlans vals st' = remainingAll allPlans vals st ∧
        StWF allPlans st' ∧ (off' ≤ cap ∨ off' = off) ∧
        ((st'.ovfl = true ∧ st'.tileDone = false ∧ remainingAll allPlans vals st' ≠ [] ∧
            cap < off' + cellSz) ∨
          (st'.ovfl = false ∧ st'.done = true ∧ remainingAll allPlans vals st' = []))) := by
  intro fuel
  induction fuel with
  | zero =>
    intro st out off hwf hov
    constructor
    · intro h; simp [read_dense_attr] at h
    · intro st' o' f' h; simp [read_dense_attr] at h
  | succ fuel ih =>
    intro st out off hwf hov
    -- Step 1: the resume copy (or nothing when the tile is done).
    have hstep1 : ∃ st1 out1 off1,
        (if st.tileDone = false then copy_cell_ranges cellSz cap allPlans vals st out off
         else some (st, out, off)) = some (st1, out1, off1) ∧
        ∃ d, out1 = out ++ d ∧ off1 = off + cellSz * d.length ∧
          d ++ remainingAll allPlans vals st1 = remainingAll allPlans vals st ∧
          StWF allPlans st1 ∧ (off1 ≤ cap ∨ off1 = off) ∧ st1.done = st.done ∧
          ((st1.ovfl = true ∧ st1.tileDone = false ∧ remainingAll allPlans vals st1 ≠ [] ∧
              cap < off1 + cellSz) ∨ st1.ovfl = false) := by
      by_cases htd : st.tileDone = false
      · have hlt : st.vecPos < st.vecLen := hwf.2.2.2.1 htd
        obtain ⟨hcn, hcs⟩ := copy_cell_ranges_spec cellSz cap allPlans vals st out off hv hwf hlt
        rw [if_pos htd]
        cases hc1 : copy_cell_ranges cellSz cap allPlans vals st out off with
        | none => exact absurd hc1 (fun h => hcn h)
        | some trip =>
          obtain ⟨st1, out1, off1⟩ := trip
          obtain ⟨d, hd1, hd2, hd3, hvlen, hdn, hoff, hwf1, hdisj⟩ := hcs st1 out1 off1 hc1
          refine ⟨st1, out1, off1, rfl, d, hd1, hd2, hd3, hwf1, hoff, hdn, ?_⟩
          rcases hdisj with ⟨a, b, _, c, e⟩ | ⟨a, _, _⟩
          · exact Or.inl ⟨a, b, c, e⟩
          · right; rw [a, hov]
      · rw [if_neg htd]
        exact ⟨st, out, off, rfl, [], by simp, by simp, by simp, hwf, Or.inr rfl, rfl,
          Or.inr hov⟩
    obtain ⟨st1, out1, off1, hc1, d1, hd11, hd12, hd13, hwf1, hoff1, hdn1, hdisj1⟩ := hstep1
    have hunf : read_dense_attr cellSz cap allPlans vals (fuel + 1) st out off =
        (if st1.ovfl then ReadRes.ok st1 out1 off1
         else
           if (if st1.vecLen ≤ st1.vecPos then get_next_cell_ranges_dense allPlans st1
               else st1).done then
             ReadRes.ok (if st1.vecLen ≤ st1.vecPos then
               get_next_cell_ranges_dense allPlans st1 else st1) out1 off1
           else
             match copy_cell_ranges cellSz cap allPlans vals
                 (if st1.vecLen ≤ st1.vecPos then get_next_cell_ranges_dense allPlans st1
                  else st1) out1 off1 with
             | none => ReadRes.err
             | some (st3, out3, off3) =>
               if st3.ovfl then ReadRes.ok st3 out3 off3
               else read_dense_attr cellSz cap allPlans vals fuel st3 out3 off3) := by
      conv =>
        lhs
        rw [read_dense_attr]
      rw [hc1]
    cases hov1 : st1.ovfl with
    | true =>
      rw [hunf, if_pos hov1]
      rcases hdisj1 with ⟨_, htd1, hrem1, hcap1⟩ | hfalse
      · constructor
        · intro h; exact ReadRes.noConfusion h
        · intro st' o' f' h
          have h1 : st1 = st' ∧ out1 = o' ∧ off1 = f' := by
            refine ⟨?_, ?_, ?_⟩ <;> cases h <;> rfl
          obtain ⟨rfl, rfl, rfl⟩ := h1
          exact ⟨d1, hd11, hd12, hd13, hwf1, hoff1, Or.inl ⟨hov1, htd1, hrem1, hcap1⟩⟩
      · rw [hfalse] at hov1; cases hov1
    | false =>
      rw [hunf, if_neg (by simp [hov1])]
      -- Step 3: possibly compute the next plan.
      have hstep2 : ∃ st2 : AttrState,
          (if st1.vecLen ≤ st1.vecPos then get_next_cell_ranges_dense allPlans st1 else st1) =
            st2 ∧
          remainingAll allPlans vals st2 = remainingAll allPlans vals st1 ∧
          StWF allPlans st2 ∧ st2.ovfl = false ∧
          (st2.done = false → st2.vecPos < st2.vecLen) ∧
          (st2.done = true → remainingAll allPlans vals st2 = []) := by
        by_cases hvl : st1.vecLen ≤ st1.vecPos
        · rw [if_pos hvl]
          obtain ⟨g1, g2, g3, g4, g5, g6⟩ := get_next_spec allPlans vals st1 hwf1 hvl
          exact ⟨_, rfl, g1, g2, by rw [g3, hov1], g5, g6⟩
        · rw [if_neg hvl]
          refine ⟨st1, rfl, rfl, hwf1, hov1, fun _ => by omega, ?_⟩
          intro hd
          have := hwf1.2.2.2.2 hd
          have h2 := hwf1.2.1
          omega
      obtain ⟨st2, hc2, hrem2, hwf2, hov2, hndone2, hdone2⟩ := hstep2
      rw [hc2]
      by_cases hdn2 : st2.done = true
      · rw [if_pos hdn2]
        constructor
        · intro h; exact ReadRes.noConfusion h
        · intro st' o' f' h
          have h1 : st2 = st' ∧ out1 = o' ∧ off1 = f' := by
            refine ⟨?_, ?_, ?_⟩ <;> cases h <;> rfl
          obtain ⟨rfl, rfl, rfl⟩ := h1
          refine ⟨d1, hd11, hd12, ?_, hwf2, hoff1, Or.inr ⟨hov2, hdn2, hdone2 hdn2⟩⟩
          rw [hrem2]
          exact hd13
      · rw [if_neg hdn2]
        have hdn2' : st2.done = false := by simpa using hdn2
        -- Step 5: copy the (new) current plan.
        obtain ⟨hcn3, hcs3⟩ := copy_cell_ranges_spec cellSz cap allPlans vals st2 out1 off1 hv
          hwf2 (hndone2 hdn2')
        cases hc3 : copy_cell_ranges cellSz cap allPlans vals st2 out1 off1 with
        | none =>
          constructor
          · intro _; exact hcn3 hc3
          · intro st' o' f' h; exact ReadRes.noConfusion h
        | some trip =>
          obtain ⟨st3, out3, off3⟩ := trip
          dsimp only
          obtain ⟨d2, hd21, hd22, hd23, hvlen3, hdn3, hoff3, hwf3, hdisj3⟩ :=
            hcs3 st3 out3 off3 hc3
          have hcomb : ∀ d3 stf,
              d3 ++ remainingAll allPlans vals stf = remainingAll allPlans vals st3 →
              (d1 ++ d2 ++ d3) ++ remainingAll allPlans vals stf =
                remainingAll allPlans vals st := by
            intro d3 stf h3
            rw [List.append_assoc, List.append_assoc, h3, hd23, hrem2, hd13]
          by_cases hov3 : st3.ovfl = true
          · rw [if_pos hov3]
            rcases hdisj3 with ⟨_, htd3, _, hrem3, hcap3⟩ | ⟨ha, _, _⟩
            · constructor
              · intro h; exact ReadRes.noConfusion h
              · intro st' o' f' h
                have h1 : st3 = st' ∧ out3 = o' ∧ off3 = f' := by
                  refine ⟨?_, ?_, ?_⟩ <;> cases h <;> rfl
                obtain ⟨rfl, rfl, rfl⟩ := h1
                refine ⟨d1 ++ d2, ?_, ?_, ?_, hwf3, ?_, Or.inl ⟨hov3, htd3, hrem3, hcap3⟩⟩
                · rw [hd21, hd11, List.append_assoc]
                · rw [hd22, hd12, List.length_append]
                  ring
                · have := hcomb [] st3 (by simp)
                  simpa using this
                · rcases hoff3 with h | h
                  · exact Or.inl h
                  · rw [h]; exact hoff1
            · rw [ha, hov2] at hov3; cases hov3
          · rw [if_neg hov3]
            have hov3' : st3.ovfl = false := by simpa using hov3
            obtain ⟨ihe, ihs⟩ := ih st3 out3 off3 hwf3 hov3'
            constructor
            · exact ihe
            · intro st' o' f' h
              obtain ⟨d3, he1, he2, he3, hewf, heoff, hedisj⟩ := ihs st' o' f' h
              refine ⟨d1 ++ d2 ++ d3, ?_, ?_, hcomb d3 st' he3, hewf, ?_, hedisj⟩
              · rw [he1, hd21, hd11]
                simp [List.append_assoc]
              · rw [he2, hd22, hd12]
                simp only [List.length_append]
                ring
              · rcases heoff with h | h
                · exact Or.inl h
                · rw [h, hd22]
                  rcases hoff3 with h2 | h2
                  · exact Or.inl (by omega)
                  · rw [hd22] at h2
                    rw [h2]
                    exact hoff1

theorem read_attr_no_fuelOut {α : Type} (cellSz cap : Nat) (allPlans : List (List PlanEntry))
    (vals : PlanEntry → Option (List α))
    (hv : ∀ p ∈ allPlans, ∀ e ∈ p, e.frag = -1 ∨ vals e ≠ none) :
    ∀ fuel (st : AttrState) (out : List α) (off : Nat), StWF allPlans st → st.ovfl = false →
    allPlans.length + 2 ≤ fuel + st.vecPos →
    read_dense_attr cellSz cap allPlans vals fuel st out off ≠ .fuelOut := by
  intro fuel
  induction fuel with
  | zero =>
    intro st out off hwf hov hfuel
    have h1 := hwf.1
    have h2 := hwf.2.1
    omega
  | succ fuel ih =>
    intro st out off hwf hov hfuel
    have hstep1 : ∃ st1 out1 off1,
        (if st.tileDone = false then copy_cell_ranges cellSz cap allPlans vals st out off
         else some (st, out, off)) = some (st1, out1, off1) ∧
        StWF allPlans st1 ∧ st.vecPos ≤ st1.vecPos := by
      by_cases htd : st.tileDone = false
      · have hlt : st.vecPos < st.vecLen := hwf.2.2.2.1 htd
        obtain ⟨hcn, hcs⟩ := copy_cell_ranges_spec cellSz cap allPlans vals st out off hv hwf hlt
        rw [if_pos htd]
        cases hc1 : copy_cell_ranges cellSz cap allPlans vals st out off with
        | none => exact absurd hc1 (fun h => hcn h)
        | some trip =>
          obtain ⟨st1, out1, off1⟩ := trip
          obtain ⟨d, _, _, _, _, _, _, hwf1, hdisj⟩ := hcs st1 out1 off1 hc1
          refine ⟨st1, out1, off1, rfl, hwf1, ?_⟩
          rcases hdisj with ⟨_, _, hvp, _, _⟩ | ⟨_, _, hvp⟩ <;> omega
      · exact ⟨st, out, off, by rw [if_neg htd], hwf, Nat.le_refl _⟩
    obtain ⟨st1, out1, off1, hc1, hwf1, hvp1⟩ := hstep1
    have hunf : read_dense_attr cellSz cap allPlans vals (fuel + 1) st out off =
        (if st1.ovfl then ReadRes.ok st1 out1 off1
         else
           if (if st1.vecLen ≤ st1.vecPos then get_next_cell_ranges_dense allPlans st1
               else st1).done then
             ReadRes.ok (if st1.vecLen ≤ st1.vecPos then
               get_next_cell_ranges_dense allPlans st1 else st1) out1 off1
           else
             match copy_cell_ranges cellSz cap allPlans vals
                 (if st1.vecLen ≤ st1.vecPos then get_next_cell_ranges_dense allPlans st1
                  else st1) out1 off1 with
             | none => ReadRes.err
             | some (st3, out3, off3) =>
               if st3.ovfl then ReadRes.ok st3 out3 off3
               else read_dense_attr cellSz cap allPlans vals fuel st3 out3 off3) := by
      conv =>
        lhs
        rw [read_dense_attr]
      rw [hc1]
    by_cases hov1 : st1.ovfl = true
    · rw [hunf, if_pos hov1]
      exact fun h => ReadRes.noConfusion h
    · rw [hunf, if_neg hov1]
      have hov1' : st1.ovfl = false := by simpa using hov1
      have hstep2 : ∃ st2 : AttrState,
          (if st1.vecLen ≤ st1.vecPos then get_next_cell_ranges_dense allPlans st1 else st1) =
            st2 ∧
          StWF allPlans st2 ∧ st2.ovfl = false ∧ st2.vecPos = st1.vecPos ∧
          (st2.done = false → st2.vecPos < st2.vecLen) := by
        by_cases hvl : st1.vecLen ≤ st1.vecPos
        · rw [if_pos hvl]
          obtain ⟨_, g2, g3, _, g5, _⟩ := get_next_spec allPlans vals st1 hwf1 hvl
          refine ⟨_, rfl, g2, by rw [g3, hov1'], ?_, g5⟩
          unfold get_next_cell_ranges_dense
          by_cases hlen : st1.vecLen < allPlans.length
          · rw [if_pos hlen]
          · rw [if_neg hlen]
        · rw [if_neg hvl]
          refine ⟨st1, rfl, hwf1, hov1', rfl, fun _ => by omega⟩
      obtain ⟨st2, hc2, hwf2, hov2, hvp2, hndone2⟩ := hstep2
      rw [hc2]
      by_cases hdn2 : st2.done = true
      · rw [if_pos hdn2]
        exact fun h => ReadRes.noConfusion h
      · rw [if_neg hdn2]
        have hdn2' : st2.done = false := by simpa using hdn2
        obtain ⟨hcn3, hcs3⟩ := copy_cell_ranges_spec cellSz cap allPlans vals st2 out1 off1 hv
          hwf2 (hndone2 hdn2')
        cases hc3 : copy_cell_ranges cellSz cap allPlans vals st2 out1 off1 with
        | none => exact fun h => ReadRes.noConfusion h
        | some trip =>
          obtain ⟨st3, out3, off3⟩ := trip
          dsimp only
          obtain ⟨d2, _, _, _, _, _, _, hwf3, hdisj3⟩ := hcs3 st3 out3 off3 hc3
          by_cases hov3 : st3.ovfl = true
          · rw [if_pos hov3]
            exact fun h => ReadRes.noConfusion h
          · rw [if_neg hov3]
            have hov3' : st3.ovfl = false := by simpa using hov3
            have hvp3 : st3.vecPos = st2.vecPos + 1 := by
              rcases hdisj3 with ⟨ha, _, _⟩ | ⟨_, _, hvp⟩
              · rw [ha] at hov3'; cases hov3'
              · exact hvp
            exact ih st3 out3 off3 hwf3 hov3' (by omega)

theorem readCall_spec {α : Type} (cellSz cap : Nat) (allPlans : List (List PlanEntry))
    (vals : PlanEntry → Option (List α)) (st : AttrState)
    (hv : ∀ p ∈ allPlans, ∀ e ∈ p, e.frag = -1 ∨ vals e ≠ none)
    (hwf : StWF allPlans st) :
    ∃ (st' : AttrState) (out : List α) (off : Nat),
      readCall cellSz cap allPlans vals st = .ok st' out off ∧
      off = cellSz * out.length ∧
      out ++ remainingAll allPlans vals st' = remainingAll allPlans vals st ∧
      StWF allPlans st' ∧ (off ≤ cap ∨ off = 0) ∧
      ((st'.ovfl = true ∧ st'.tileDone = false ∧ remainingAll allPlans vals st' ≠ [] ∧
          cap < off + cellSz) ∨
        (st'.ovfl = false ∧ st'.done = true ∧ remainingAll allPlans vals st' = [])) := by
  have hwfr : StWF allPlans
      (⟨st.vecLen, st.vecPos, st.entryDone, st.cellDone, st.tileDone, false, false⟩ :
        AttrState) := by
    obtain ⟨h1, h2, h3, h4, h5⟩ := hwf
    exact ⟨by simpa using h1, by simpa using h2, by simpa using h3, by simpa using h4,
      fun h => by simp at h⟩
  have hrst : ({ st with ovfl := false, done := false } : AttrState) =
      ⟨st.vecLen, st.vecPos, st.entryDone, st.cellDone, st.tileDone, false, false⟩ := rfl
  obtain ⟨hne, hspec⟩ := read_attr_spec cellSz cap allPlans vals hv (allPlans.length + 2)
    ⟨st.vecLen, st.vecPos, st.entryDone, st.cellDone, st.tileDone, false, false⟩ [] 0 hwfr rfl
  have hnf := read_attr_no_fuelOut cellSz cap allPlans vals hv (allPlans.length + 2)
    ⟨st.vecLen, st.vecPos, st.entryDone, st.cellDone, st.tileDone, false, false⟩ [] 0 hwfr rfl
    (by omega)
  cases hres : read_dense_attr cellSz cap allPlans vals (allPlans.length + 2)
      ⟨st.vecLen, st.vecPos, st.entryDone, st.cellDone, st.tileDone, false, false⟩ [] 0 with
  | err => exact absurd hres (fun h => hne h)
  | fuelOut => exact absurd hres hnf
  | ok st' out off =>
    obtain ⟨d, hd1, hd2, hd3, hwf', hoffd, hdisj⟩ := hspec st' out off hres
    have hout : out = d := by simpa using hd1
    subst hout
    have hoff : off = cellSz * out.length := by simpa using hd2
    have hrem : remainingAll allPlans vals
        (⟨st.vecLen, st.vecPos, st.entryDone, st.cellDone, st.tileDone, false, false⟩ :
          AttrState) = remainingAll allPlans vals st := rfl
    refine ⟨st', out, off, ?_, hoff, ?_, hwf', ?_, hdisj⟩
    · show read_dense_attr cellSz cap allPlans vals (allPlans.length + 2)
        ({ st with ovfl := false, done := false }) [] 0 = ReadRes.ok st' out off
      rw [hrst]
      exact hres
    · rw [hd3, hrem]
    · rcases hoffd with h | h
      · exact Or.inl h
      · right; rw [h]

/-- Claim C4: when a fragment reports overflow while copying an
attribute's current per-tile plan, the read call returns success (not
error), the attribute's `buffer_size` is rewritten to the bytes produced
so far, `overflow_[attr]` is recorded, and the plan position is not
advanced past the overflowing plan: the remaining stream of the final
state extends seamlessly (`out ++ remaining st' = remaining st`, with
work still pending).  The last clause shows overflow is indeed recorded
whenever the remaining data exceeds the buffer capacity. -/
theorem c4_overflow_ok {α : Type} (cellSz cap : Nat) (allPlans : List (List PlanEntry))
    (vals : PlanEntry → Option (List α)) (st : AttrState)
    (hv : ∀ p ∈ allPlans, ∀ e ∈ p, e.frag = -1 ∨ vals e ≠ none)
    (hwf : StWF allPlans st) :
    (∃ st' out off, readCall cellSz cap allPlans vals st = .ok st' out off) ∧
    (∀ st' (out : List α) off, readCall cellSz cap allPlans vals st = .ok st' out off →
      st'.ovfl = true →
        off = cellSz * out.length ∧ st'.tileDone = false ∧
        out ++ remainingAll allPlans vals st' = remainingAll allPlans vals st ∧
        remainingAll allPlans vals st' ≠ []) ∧
    (∀ st' (out : List α) off, readCall cellSz cap allPlans vals st = .ok st' out off →
      cap < cellSz * (remainingAll allPlans vals st).length → st'.ovfl = true) := by
  obtain ⟨st0, out0, off0, heq, hoff, hchain, hwf0, hoffd, hdisj⟩ :=
    readCall_spec cellSz cap allPlans vals st hv hwf
  refine ⟨⟨st0, out0, off0, heq⟩, ?_, ?_⟩
  · intro st' out off h hovf
    rw [heq] at h
    have h1 : st0 = st' ∧ out0 = out ∧ off0 = off := by
      refine ⟨?_, ?_, ?_⟩ <;> cases h <;> rfl
    obtain ⟨rfl, rfl, rfl⟩ := h1
    rcases hdisj with ⟨_, htd, hrem, _⟩ | ⟨hof, _, _⟩
    · exact ⟨hoff, htd, hchain, hrem⟩
    · rw [hof] at hovf; cases hovf
  · intro st' out off h hcap
    rw [heq] at h
    have h1 : st0 = st' ∧ out0 = out ∧ off0 = off := by
      refine ⟨?_, ?_, ?_⟩ <;> cases h <;> rfl
    obtain ⟨rfl, rfl, rfl⟩ := h1
    rcases hdisj with ⟨hof, _, _, _⟩ | ⟨hof, _, hremnil⟩
    · exact hof
    · exfalso
      rw [hremnil, List.append_nil] at hchain
      rw [hchain] at hoff
      rcases hoffd with hle | h0
      · omega
      · omega

theorem c4_overflow_ok_witness :
    (16 : Nat) = 4 * ([0, 1, 2, 3] : List Nat).length ∧
    (⟨1, 0, 0, 4, false, true, false⟩ : AttrState).tileDone = false ∧
    ([0, 1, 2, 3] : List Nat) ++
        remainingAll [[⟨0, 0, 9⟩]] (fun _ => some (List.range 10))
          ⟨1, 0, 0, 4, false, true, false⟩ =
      remainingAll [[⟨0, 0, 9⟩]] (fun _ => some (List.range 10)) initialState ∧
    remainingAll [[⟨0, 0, 9⟩]] (fun _ => some (List.range 10))
      ⟨1, 0, 0, 4, false, true, false⟩ ≠ [] :=
  (c4_overflow_ok 4 16 [[⟨0, 0, 9⟩]] (fun _ => some (List.range 10)) initialState
      (by decide) (by simp [StWF, initialState])).2.1
    ⟨1, 0, 0, 4, false, true, false⟩ [0, 1, 2, 3] 16 (by rfl) (by rfl)

theorem runReads_done {α : Type} (cellSz cap : Nat) (allPlans : List (List PlanEntry))
    (vals : PlanEntry → Option (List α))
    (hv : ∀ p ∈ allPlans, ∀ e ∈ p, e.frag = -1 ∨ vals e ≠ none) :
    ∀ k (st : AttrState), StWF allPlans st → st.done = true →
    remainingAll allPlans vals st = [] →
    ∃ stf, runReads cellSz cap allPlans vals k st = some ([], stf) ∧ stf.done = true ∧
      StWF allPlans stf ∧ remainingAll allPlans vals stf = [] := by
  intro k
  induction k with
  | zero =>
    intro st hwf hdn hrem
    exact ⟨st, rfl, hdn, hwf, hrem⟩
  | succ k ih =>
    intro st hwf hdn hrem
    obtain ⟨st', out, off, heq, hoff, hchain, hwf', hoffd, hdisj⟩ :=
      readCall_spec cellSz cap allPlans vals st hv hwf
    rw [hrem] at hchain
    rw [List.append_eq_nil] at hchain
    obtain ⟨hout, hrem'⟩ := hchain
    have hdn' : st'.done = true := by
      rcases hdisj with ⟨_, _, hne, _⟩ | ⟨_, hd, _⟩
      · exact absurd hrem' hne
      · exact hd
    obtain ⟨stf, hrun, hdf, hwff, hremf⟩ := ih st' hwf' hdn' hrem'
    refine ⟨stf, ?_, hdf, hwff, hremf⟩
    have hunf : runReads cellSz cap allPlans vals (k + 1) st =
        (match runReads cellSz cap allPlans vals k st' with
         | some (rest, stf) => some (out ++ rest, stf)
         | none => none) := by
      conv =>
        lhs
        rw [runReads]
      rw [heq]
    rw [hunf, hrun, hout]
    rfl

theorem runReads_all {α : Type} (cellSz cap : Nat) (allPlans : List (List PlanEntry))
    (vals : PlanEntry → Option (List α))
    (hv : ∀ p ∈ allPlans, ∀ e ∈ p, e.frag = -1 ∨ vals e ≠ none) (hcs : cellSz ≤ cap) :
    ∀ k (st : AttrState), StWF allPlans st →
    (remainingAll allPlans vals st).length + 1 ≤ k →
    ∃ stf, runReads cellSz cap allPlans vals k st =
      some (remainingAll allPlans vals st, stf) ∧ stf.done = true := by
  intro k
  induction k with
  | zero =>
    intro st hwf hlen
    omega
  | succ k ih =>
    intro st hwf hlen
    obtain ⟨st', out, off, heq, hoff, hchain, hwf', hoffd, hdisj⟩ :=
      readCall_spec cellSz cap allPlans vals st hv hwf
    have hunf : runReads cellSz cap allPlans vals (k + 1) st =
        (match runReads cellSz cap allPlans vals k st' with
         | some (rest, stf) => some (out ++ rest, stf)
         | none => none) := by
      conv =>
        lhs
        rw [runReads]
      rw [heq]
    rcases hdisj with ⟨_, _, hremne, hcap⟩ | ⟨_, hdone, hremnil⟩
    · have hout : out ≠ [] := by
        intro h0
        rw [h0] at hoff
        simp at hoff
        omega
      have hlt : (remainingAll allPlans vals st').length <
          (remainingAll allPlans vals st).length := by
        have := congrArg List.length hchain
        simp only [List.length_append] at this
        have hpos : 0 < out.length := by
          cases hno : out with
          | nil => exact absurd hno hout
          | cons a l => simp [hno]
        omega
      obtain ⟨stf, hrun, hdf⟩ := ih st' hwf' (by omega)
      refine ⟨stf, ?_, hdf⟩
      rw [hunf, hrun]
      have : out ++ remainingAll allPlans vals st' = remainingAll allPlans vals st := hchain
      simp only
      rw [this]
    · have houtall : out = remainingAll allPlans vals st := by
        rw [← hchain, hremnil, List.append_nil]
      obtain ⟨stf, hrun, hdf, _, _⟩ :=
        runReads_done cellSz cap allPlans vals hv k st' hwf' hdone hremnil
      refine ⟨stf, ?_, hdf⟩
      rw [hunf, hrun, houtall]
      simp

/-- Claim C5 counterexample: with a zero-capacity buffer (a buffer size
that certainly triggers overflow), every one of five consecutive read
calls returns success with zero bytes and the state does not advance, so
the concatenation of consecutive calls never reaches the single-call
output `[42]` - the claim fails for buffer sizes smaller than one cell. -/
theorem c5_zero_buffer_counterexample :
    runReads 1 0 [[⟨0, 0, 0⟩]] (fun _ => some [42]) 5 initialState =
      some (([] : List Nat), ⟨1, 0, 0, 0, false, true, false⟩) ∧
    readCall 1 10 [[⟨0, 0, 0⟩]] (fun _ => some [42]) initialState =
      .ok ⟨1, 1, 0, 0, true, false, true⟩ [42] 1 := by
  constructor
  · rfl
  · rfl

/-- Claim C5 (amended): for any buffer size `cap` that is at least one
cell's size, the concatenation of consecutive read calls with buffer
size `cap`, run until the stream reports done, is identical to the
output of a single read call whose buffer holds the whole result. -/
theorem c5_resumable_concatenation {α : Type} (cellSz cap bigCap : Nat)
    (allPlans : List (List PlanEntry)) (vals : PlanEntry → Option (List α))
    (stB : AttrState) (outB : List α) (offB : Nat)
    (hcs : cellSz ≤ cap)
    (hv : ∀ p ∈ allPlans, ∀ e ∈ p, e.frag = -1 ∨ vals e ≠ none)
    (hbig : cellSz * (remainingAll allPlans vals initialState).length ≤ bigCap)
    (hbigrun : readCall cellSz bigCap allPlans vals initialState = .ok stB outB offB) :
    ∃ stk, runReads cellSz cap allPlans vals
        ((remainingAll allPlans vals initialState).length + 1) initialState =
      some (outB, stk) ∧ stk.done = true := by
  have hwf0 : StWF allPlans initialState := by
    refine ⟨Nat.le_refl 0, by simp [initialState], fun _ => ⟨rfl, rfl⟩, ?_, ?_⟩
    · intro h; simp [initialState] at h
    · intro h; simp [initialState] at h
  obtain ⟨st0, out0, off0, heq0, hoff0, hchain0, hwf0', hoffd0, hdisj0⟩ :=
    readCall_spec cellSz bigCap allPlans vals initialState hv hwf0
  rw [heq0] at hbigrun
  have h1 : st0 = stB ∧ out0 = outB ∧ off0 = offB := by
    refine ⟨?_, ?_, ?_⟩ <;> cases hbigrun <;> rfl
  obtain ⟨rfl, rfl, rfl⟩ := h1
  have houtB : out0 = remainingAll allPlans vals initialState := by
    rcases hdisj0 with ⟨_, _, hremne, hcap0⟩ | ⟨_, _, hremnil⟩
    · exfalso
      have hlen := congrArg List.length hchain0
      simp only [List.length_append] at hlen
      have hpos : 0 < (remainingAll allPlans vals st0).length := by
        cases hno : remainingAll allPlans vals st0 with
        | nil => exact absurd hno hremne
        | cons a l => simp [hno]
      have hle2 : cellSz * (out0.length + 1) ≤
          cellSz * (remainingAll allPlans vals initialState).length :=
        Nat.mul_le_mul_left cellSz (by omega)
      rw [Nat.mul_add, Nat.mul_one] at hle2
      omega
    · rw [← hchain0, hremnil, List.append_nil]
  obtain ⟨stk, hrun, hdk⟩ := runReads_all cellSz cap allPlans vals hv hcs
    ((remainingAll allPlans vals initialState).length + 1) initialState hwf0 (Nat.le_refl _)
  refine ⟨stk, ?_, hdk⟩
  rw [hrun, houtB]

theorem c5_resumable_concatenation_witness :
    ∃ stk, runReads 1 2 [[⟨0, 0, 4⟩]] (fun _ => some [1, 2, 3, 4, 5])
        ((remainingAll [[⟨0, 0, 4⟩]] (fun _ => some [1, 2, 3, 4, 5]) initialState).length + 1)
        initialState = some ([1, 2, 3, 4, 5], stk) ∧ stk.done = true :=
  c5_resumable_concatenation 1 2 10 [[⟨0, 0, 4⟩]] (fun _ => some [1, 2, 3, 4, 5])
    ⟨1, 1, 0, 0, true, false, true⟩ [1, 2, 3, 4, 5] 5 (by decide) (by decide) (by decide)
    (by rfl)

theorem fcrBefore_le {x y : FCR} (h : fcrBefore x y = true) : x.lo ≤ y.lo := by
  simp only [fcrBefore, Bool.or_eq_true, Bool.and_eq_true, decide_eq_true_eq,
    beq_iff_eq] at h
  rcases h with h | ⟨h, _⟩ <;> omega

theorem fcrBefore_cases {x y : FCR} (h : fcrBefore x y = true) :
    x.lo < y.lo ∨ (x.lo = y.lo ∧ y.frag ≤ x.frag) := by
  simpa only [fcrBefore, Bool.or_eq_true, Bool.and_eq_true, decide_eq_true_eq,
    beq_iff_eq] using h

theorem fcrBefore_total (x y : FCR) : fcrBefore x y = true ∨ fcrBefore y x = true := by
  simp only [fcrBefore, Bool.or_eq_true, Bool.and_eq_true, decide_eq_true_eq, beq_iff_eq]
  by_cases h1 : x.lo < y.lo
  · exact Or.inl (Or.inl h1)
  · by_cases h2 : y.lo < x.lo
    · exact Or.inr (Or.inl h2)
    · by_cases h3 : y.frag ≤ x.frag
      · exact Or.inl (Or.inr ⟨by omega, h3⟩)
      · exact Or.inr (Or.inr ⟨by omega, by omega⟩)

theorem fcrBefore_trans {x y z : FCR} (h1 : fcrBefore x y = true)
    (h2 : fcrBefore y z = true) : fcrBefore x z = true := by
  simp only [fcrBefore, Bool.or_eq_true, Bool.and_eq_true, decide_eq_true_eq,
    beq_iff_eq] at h1 h2 ⊢
  rcases h1 with h1 | ⟨h1a, h1b⟩ <;> rcases h2 with h2 | ⟨h2a, h2b⟩
  · exact Or.inl (by omega)
  · exact Or.inl (by omega)
  · exact Or.inl (by omega)
  · exact Or.inr ⟨by omega, by omega⟩

theorem mem_pqPush {s r : FCR} : ∀ {q : List FCR}, s ∈ pqPush r q ↔ s = r ∨ s ∈ q := by
  intro q
  induction q with
  | nil => simp [pqPush]
  | cons t rest ih =>
    by_cases h : fcrBefore t r = true
    · rw [pqPush, if_pos h, List.mem_cons, ih, List.mem_cons]
      tauto
    · rw [pqPush, if_neg h, List.mem_cons, List.mem_cons]

theorem pqPush_pairwise {r : FCR} :
    ∀ {q : List FCR}, q.Pairwise (fun a b => fcrBefore a b = true) →
    (pqPush r q).Pairwise (fun a b => fcrBefore a b = true) := by
  intro q
  induction q with
  | nil => intro _; simp [pqPush]
  | cons t rest ih =>
    intro hp
    rw [List.pairwise_cons] at hp
    obtain ⟨ht, hrest⟩ := hp
    by_cases h : fcrBefore t r = true
    · rw [pqPush, if_pos h, List.pairwise_cons]
      refine ⟨?_, ih hrest⟩
      intro s hs
      rcases mem_pqPush.mp hs with rfl | hs
      · exact h
      · exact ht s hs
    · rw [pqPush, if_neg h, List.pairwise_cons]
      have hrt : fcrBefore r t = true := by
        rcases fcrBefore_total t r with h1 | h1
        · exact absurd h1 h
        · exact h1
      refine ⟨?_, List.pairwise_cons.mpr ⟨ht, hrest⟩⟩
      intro s hs
      rcases List.mem_cons.mp hs with rfl | hs
      · exact hrt
      · exact fcrBefore_trans hrt (ht s hs)

theorem pqPush_perm (r : FCR) : ∀ (q : List FCR), List.Perm (pqPush r q) (r :: q) := by
  intro q
  induction q with
  | nil => exact List.Perm.refl _
  | cons t rest ih =>
    by_cases h : fcrBefore t r = true
    · rw [pqPush, if_pos h]
      exact List.Perm.trans (List.Perm.cons t ih) (List.Perm.swap r t rest)
    · rw [pqPush, if_neg h]

theorem DisjSameFrag_symm : ∀ {x y : FCR}, DisjSameFrag x y → DisjSameFrag y x := by
  intro x y h heq
  rcases h heq.symm with h1 | h1
  · exact Or.inr h1
  · exact Or.inl h1

theorem pqPush_pairwise_disj {r : FCR} {q : List FCR}
    (hq : q.Pairwise DisjSameFrag) (hr : ∀ s ∈ q, DisjSameFrag r s) :
    (pqPush r q).Pairwise DisjSameFrag := by
  rw [List.Perm.pairwise_iff DisjSameFrag_symm (pqPush_perm r q)]
  rw [List.pairwise_cons]
  exact ⟨hr, hq⟩

theorem pqSeed_mem {s : FCR} {inputs : List FCR} : s ∈ pqSeed inputs ↔ s ∈ inputs := by
  have hgen : ∀ (l acc : List FCR), s ∈ l.foldl (fun q r => pqPush r q) acc ↔
      s ∈ acc ∨ s ∈ l := by
    intro l
    induction l with
    | nil => intro acc; simp
    | cons r l ih =>
      intro acc
      rw [List.foldl_cons, ih]
      rw [mem_pqPush]
      simp only [List.mem_cons]
      tauto
  rw [pqSeed, hgen]
  simp

theorem pqSeed_perm (inputs : List FCR) : List.Perm (pqSeed inputs) inputs := by
  have hgen : ∀ (l acc : List FCR),
      List.Perm (l.foldl (fun q r => pqPush r q) acc) (acc ++ l) := by
    intro l
    induction l with
    | nil => intro acc; simp
    | cons r l ih =>
      intro acc
      rw [List.foldl_cons]
      have h1 := ih (pqPush r acc)
      have h2 : List.Perm (pqPush r acc ++ l) ((r :: acc) ++ l) :=
        (pqPush_perm r acc).append_right l
      have h3 : List.Perm ((r :: acc) ++ l) (acc ++ r :: l) := by
        rw [List.cons_append]
        exact (List.perm_middle).symm
      exact h1.trans (h2.trans h3)
  have := hgen inputs []
  simpa using this

theorem pqSeed_pairwise (inputs : List FCR) :
    (pqSeed inputs).Pairwise (fun a b => fcrBefore a b = true) := by
  have hgen : ∀ (l acc : List FCR), acc.Pairwise (fun a b => fcrBefore a b = true) →
      (l.foldl (fun q r => pqPush r q) acc).Pairwise (fun a b => fcrBefore a b = true) := by
    intro l
    induction l with
    | nil => intro acc h; simpa using h
    | cons r l ih =>
      intro acc h
      rw [List.foldl_cons]
      exact ih _ (pqPush_pairwise h)
  exact hgen inputs [] List.Pairwise.nil

theorem fcrTight_iff {frags : List Frag} {r : FCR} : fcrTight frags r = true ↔
    (r.lo = r.hi ∨ ∀ fr, fragLookup frags r.frag = some fr → fr.dense = false →
      ∀ c ∈ fr.coords, c < r.lo ∨ c ≤ r.hi) := by
  unfold fcrTight
  cases hl : fragLookup frags r.frag with
  | none =>
    simp only [Bool.or_eq_true, beq_iff_eq]
    constructor
    · intro _
      right
      intro fr hfr
      cases hfr
    · intro _
      right
      trivial
  | some fr =>
    simp only [Bool.or_eq_true, beq_iff_eq, List.all_eq_true, decide_eq_true_eq]
    constructor
    · intro h
      rcases h with h | h
      · exact Or.inl h
      · rcases h with h | h
        · right
          intro fr' hfr' hd
          cases hfr'
          rw [h] at hd
          cases hd
        · right
          intro fr' hfr' _ c hc
          cases hfr'
          exact h c hc
    · intro h
      rcases h with h | h
      · exact Or.inl h
      · cases hd : fr.dense with
        | true => exact Or.inr (Or.inl rfl)
        | false =>
          right
          right
          intro c hc
          exact h fr rfl hd c hc

theorem fragLookup_mem {frags : List Frag} {i : Int} {fr : Frag}
    (h : fragLookup frags i = some fr) : fr ∈ frags := by
  unfold fragLookup at h
  by_cases hi : i < 0
  · rw [if_pos hi] at h
    cases h
  · rw [if_neg hi] at h
    exact List.getElem?_mem h

theorem firstTwoCoords_spec (coords : List Nat) (start sent : Nat)
    (hsorted : coords.Pairwise (· < ·)) :
    ((firstTwoCoords coords start sent).1 = sent ∨
      ((firstTwoCoords coords start sent).1 ∈ coords ∧
        start ≤ (firstTwoCoords coords start sent).1)) ∧
    ((firstTwoCoords coords start sent).2 = sent ∨
      ((firstTwoCoords coords start sent).2 ∈ coords ∧
        start ≤ (firstTwoCoords coords start sent).2 ∧
        (firstTwoCoords coords start sent).1 < (firstTwoCoords coords start sent).2)) := by
  unfold firstTwoCoords
  cases hf : coords.filter (fun c => start ≤ c) with
  | nil => simp
  | cons u tl =>
    have hu : u ∈ coords ∧ start ≤ u := by
      have : u ∈ coords.filter (fun c => start ≤ c) := by
        rw [hf]
        exact List.mem_cons_self u tl
      rw [List.mem_filter] at this
      exact ⟨this.1, by simpa using this.2⟩
    cases tl with
    | nil =>
      simp only
      exact ⟨Or.inr hu, Or.inl (by trivial)⟩
    | cons v tl2 =>
      have hv : v ∈ coords ∧ start ≤ v := by
        have : v ∈ coords.filter (fun c => start ≤ c) := by
          rw [hf]
          exact List.mem_cons_of_mem u (List.mem_cons_self v tl2)
        rw [List.mem_filter] at this
        exact ⟨this.1, by simpa using this.2⟩
      have huv : u < v := by
        have hps := hsorted.filter (fun c => decide (start ≤ c))
        rw [hf, List.pairwise_cons] at hps
        exact hps.1 v (List.mem_cons_self v tl2)
      simp only
      exact ⟨Or.inr hu, Or.inr ⟨hv.1, hv.2, huv⟩⟩

theorem coversCell_bounds {frags : List Frag} {r : FCR} {c : Nat}
    (h : coversCell frags r c = true) : r.lo ≤ c ∧ c ≤ r.hi := by
  unfold coversCell at h
  simp only [Bool.and_eq_true, decide_eq_true_eq] at h
  exact ⟨h.1.1, h.1.2⟩

theorem delivered_pairwise (frags : List Frag) (dEnd : Nat) (out : List FCR)
    (h : out.Pairwise (fun e f => e.hi < f.lo)) :
    (deliveredCells frags dEnd out).Pairwise (· < ·) := by
  unfold deliveredCells
  rw [List.pairwise_flatten]
  constructor
  · intro l hl
    rw [List.mem_map] at hl
    obtain ⟨r, _, rfl⟩ := hl
    exact (List.pairwise_lt_range (dEnd + 1)).filter _
  · rw [List.pairwise_map]
    refine h.imp_of_mem ?_
    intro e f _ _ hef x hx y hy
    rw [List.mem_filter] at hx hy
    have hxe := coversCell_bounds hx.2
    have hyf := coversCell_bounds hy.2
    omega

theorem fcrTight_shrink {frags : List Frag} {r : FCR} {lo' : Nat}
    (h : fcrTight frags r = true) (hne : r.lo ≠ r.hi) (hle : r.lo ≤ lo') :
    fcrTight frags ⟨r.frag, lo', r.hi⟩ = true := by
  rw [fcrTight_iff] at h ⊢
  rcases h with h | h
  · exact absurd h hne
  · right
    intro fr hfr hd c hc
    have hfr' : fragLookup frags r.frag = some fr := hfr
    rcases h fr hfr' hd c hc with h1 | h1
    · exact Or.inl (show c < lo' by omega)
    · exact Or.inr h1

theorem innerDiscard_spec (frags : List Frag) (dEnd : Nat) (pf : Int) (pa pb : Nat)
    (hpab : pa ≤ pb) :
    ∀ (k : Nat) (q : List FCR) (ub : Bool) (q' : List FCR) (ub' : Bool),
    innerDiscard pf pa pb k q ub = some (q', ub') →
    QInv frags dEnd q →
    (∀ r ∈ q, pa ≤ r.lo ∧ (r.lo = pa → r.frag ≤ pf)) →
    (∀ r ∈ q, DisjSameFrag ⟨pf, pa, pb⟩ r) →
    QInv frags dEnd q' ∧
    (∀ r ∈ q', pa ≤ r.lo ∧ (r.lo = pa → r.frag ≤ pf)) ∧
    (∀ r ∈ q', DisjSameFrag ⟨pf, pa, pb⟩ r) ∧
    (∀ t rest, q' = t :: rest → ¬(t.frag < pf ∧ pa ≤ t.lo ∧ t.lo ≤ pb)) := by
  intro k
  induction k with
  | zero =>
    intro q ub q' ub' hrun
    simp only [innerDiscard] at hrun
    cases hrun
  | succ k ih =>
    intro q ub q' ub' hrun hq hlo hdp
    cases q with
    | nil =>
      simp only [innerDiscard, Option.some.injEq, Prod.mk.injEq] at hrun
      obtain ⟨h1, _⟩ := hrun
      subst h1
      refine ⟨⟨List.Pairwise.nil, ?_, ?_, List.Pairwise.nil⟩, ?_, ?_, ?_⟩
      · intro r hr
        cases hr
      · intro r hr
        cases hr
      · intro r hr
        cases hr
      · intro r hr
        cases hr
      · intro t rest heq
        cases heq
    | cons t rest =>
      simp only [innerDiscard] at hrun
      obtain ⟨hsort, hval, htig, hdis⟩ := hq
      rw [List.pairwise_cons] at hsort hdis
      by_cases hc : t.frag < pf ∧ pa ≤ t.lo ∧ t.lo ≤ pb
      · rw [if_pos hc] at hrun
        by_cases hbt : pb < t.hi
        · rw [if_pos hbt] at hrun
          have hvt := hval t (List.mem_cons_self t rest)
          have hxval : ValidR dEnd ⟨t.frag, pb + 1, t.hi⟩ :=
            ⟨show pb + 1 ≤ t.hi by omega, hvt.2⟩
          have hxtig : fcrTight frags ⟨t.frag, pb + 1, t.hi⟩ = true := by
            refine fcrTight_shrink (htig t (List.mem_cons_self t rest)) ?_ (by omega)
            omega
          have hxdisj : ∀ s ∈ rest, DisjSameFrag ⟨t.frag, pb + 1, t.hi⟩ s := by
            intro s hs hfeq
            have hfeq' : t.frag = s.frag := hfeq
            show t.hi < s.lo ∨ s.hi < pb + 1
            rcases hdis.1 s hs hfeq' with h1 | h1
            · exact Or.inl h1
            · exact Or.inr (by omega)
          refine ih _ _ _ _ hrun ?_ ?_ ?_
          · refine ⟨pqPush_pairwise hsort.2, ?_, ?_, ?_⟩
            · intro r hr
              rw [mem_pqPush] at hr
              rcases hr with rfl | hr
              · exact hxval
              · exact hval r (List.mem_cons_of_mem t hr)
            · intro r hr
              rw [mem_pqPush] at hr
              rcases hr with rfl | hr
              · exact hxtig
              · exact htig r (List.mem_cons_of_mem t hr)
            · exact pqPush_pairwise_disj hdis.2 hxdisj
          · intro r hr
            rw [mem_pqPush] at hr
            rcases hr with rfl | hr
            · exact ⟨show pa ≤ pb + 1 by omega,
                fun h => absurd (show pb + 1 = pa from h) (by omega)⟩
            · exact hlo r (List.mem_cons_of_mem t hr)
          · intro r hr
            rw [mem_pqPush] at hr
            rcases hr with rfl | hr
            · intro hfeq
              have hfeq' : pf = t.frag := hfeq
              exact absurd hfeq' (by omega)
            · exact hdp r (List.mem_cons_of_mem t hr)
        · rw [if_neg hbt] at hrun
          refine ih _ _ _ _ hrun ?_ ?_ ?_
          · exact ⟨hsort.2, fun r hr => hval r (List.mem_cons_of_mem t hr),
              fun r hr => htig r (List.mem_cons_of_mem t hr), hdis.2⟩
          · exact fun r hr => hlo r (List.mem_cons_of_mem t hr)
          · exact fun r hr => hdp r (List.mem_cons_of_mem t hr)
      · rw [if_neg hc] at hrun
        simp only [Option.some.injEq, Prod.mk.injEq] at hrun
        obtain ⟨h1, _⟩ := hrun
        subst h1
        refine ⟨⟨List.pairwise_cons.mpr hsort, hval, htig, List.pairwise_cons.mpr hdis⟩,
          hlo, hdp, ?_⟩
        intro t' rest' heq hcc
        cases heq
        exact hc hcc

theorem mergeLoop_chain (frags : List Frag) (dEnd : Nat)
    (hcoords : ∀ fr ∈ frags, fr.coords.Pairwise (· < ·)) :
    ∀ (fuel : Nat) (q out : List FCR) (ub : Bool) (res : List FCR) (ubr : Bool),
    mergeLoop frags dEnd fuel q out ub = .ok res ubr →
    QInv frags dEnd q →
    out.Pairwise (fun e f => e.hi < f.lo) →
    (∀ e ∈ out, ∀ r ∈ q, e.hi < r.lo) →
    (∀ e ∈ out, e.lo ≤ dEnd) →
    res.Pairwise (fun e f => e.hi < f.lo) ∧ (∀ e ∈ res, e.lo ≤ dEnd) := by
  intro fuel
  induction fuel with
  | zero =>
    intro q out ub res ubr hrun
    exact MergeRes.noConfusion hrun
  | succ fuel ih =>
    intro q out ub res ubr hrun hq hout horel holo
    cases q with
    | nil =>
      have h : MergeRes.ok out ub = MergeRes.ok res ubr := hrun
      cases h
      exact ⟨hout, holo⟩
    | cons p q1 =>
      obtain ⟨hsort, hval, htig, hdis⟩ := hq
      have hmemp : p ∈ p :: q1 := List.mem_cons_self p q1
      have hvp := hval p hmemp
      have hbp : ∀ e ∈ out ++ [p], e.lo ≤ dEnd := by
        intro e he
        rcases List.mem_append.mp he with he | he
        · exact holo e he
        · rw [List.mem_singleton] at he
          rw [he]
          exact le_trans hvp.1 hvp.2
      rw [List.pairwise_cons] at hsort hdis
      have hlo1 : ∀ r ∈ q1, p.lo ≤ r.lo := fun r hr => fcrBefore_le (hsort.1 r hr)
      have hq1 : QInv frags dEnd q1 := ⟨hsort.2, fun r hr => hval r (List.mem_cons_of_mem p hr),
        fun r hr => htig r (List.mem_cons_of_mem p hr), hdis.2⟩
      cases hl : fragLookup frags p.frag with
      | none =>
        simp only [mergeLoop, hl] at hrun
        exact MergeRes.noConfusion hrun
      | some fr =>
        simp only [mergeLoop, hl] at hrun
        by_cases hc1 : q1 = [] ∧ (fr.dense = true ∨ p.lo ≠ p.hi ∨ p.lo ∈ fr.coords)
        · rw [if_pos hc1] at hrun
          cases hrun
          refine ⟨?_, hbp⟩
          rw [List.pairwise_append]
          refine ⟨hout, by simp, ?_⟩
          intro e he f hf
          rw [List.mem_singleton] at hf
          rw [hf]
          exact horel e he p hmemp
        · rw [if_neg hc1] at hrun
          by_cases hc2 : fr.dense = true ∨ p.lo = p.hi
          · rw [if_pos hc2] at hrun
            by_cases hc3 : fr.dense = false ∧ p.lo ∉ fr.coords
            · rw [if_pos hc3] at hrun
              exact ih q1 out _ res ubr hrun hq1 hout
                (fun e he r hr => horel e he r (List.mem_cons_of_mem p hr)) holo
            · rw [if_neg hc3] at hrun
              cases hid : innerDiscard p.frag p.lo p.hi (q1.length + 1) q1 (ub || q1.isEmpty) with
              | none =>
                rw [hid] at hrun
                exact MergeRes.noConfusion hrun
              | some pr =>
                obtain ⟨q2, ub2⟩ := pr
                rw [hid] at hrun
                dsimp only at hrun
                have hlo1' : ∀ r ∈ q1, p.lo ≤ r.lo ∧ (r.lo = p.lo → r.frag ≤ p.frag) := by
                  intro r hr
                  refine ⟨hlo1 r hr, ?_⟩
                  intro hle
                  rcases fcrBefore_cases (hsort.1 r hr) with h1 | h1
                  · omega
                  · exact h1.2
                have hdp1 : ∀ r ∈ q1, DisjSameFrag ⟨p.frag, p.lo, p.hi⟩ r :=
                  fun r hr => hdis.1 r hr
                obtain ⟨⟨hsort2, hval2, htig2, hdis2⟩, hlo2, hdp2, hstop⟩ :=
                  innerDiscard_spec frags dEnd p.frag p.lo p.hi hvp.1 _ _ _ _ _ hid
                    hq1 hlo1' hdp1
                cases q2 with
                | nil =>
                  dsimp only at hrun
                  refine ih [] (out ++ [p]) ub2 res ubr hrun
                    ⟨List.Pairwise.nil, ?_, ?_, List.Pairwise.nil⟩ ?_ ?_ hbp
                  · intro r hr
                    cases hr
                  · intro r hr
                    cases hr
                  · rw [List.pairwise_append]
                    refine ⟨hout, by simp, ?_⟩
                    intro e he f hf
                    rw [List.mem_singleton] at hf
                    rw [hf]
                    exact horel e he p hmemp
                  · intro e he r hr
                    cases hr
                | cons t q2t =>
                  dsimp only at hrun
                  have hmemt2 : t ∈ t :: q2t := List.mem_cons_self t q2t
                  have hvt2 := hval2 t hmemt2
                  have hlot := hlo2 t hmemt2
                  have htlo : ∀ r ∈ t :: q2t, t.lo ≤ r.lo := by
                    intro r hr
                    rcases List.mem_cons.mp hr with rfl | hr
                    · exact Nat.le_refl _
                    · exact fcrBefore_le ((List.pairwise_cons.mp hsort2).1 r hr)
                  by_cases hc4 : p.frag < t.frag ∧ t.lo ≤ p.hi
                  · rw [if_pos hc4] at hrun
                    have hplt : p.lo < t.lo := by
                      rcases Nat.eq_or_lt_of_le hlot.1 with h | h
                      · exact absurd (hlot.2 h.symm) (by omega)
                      · exact h
                    have hePair : (out ++ [(⟨p.frag, p.lo, t.lo - 1⟩ : FCR)]).Pairwise
                        (fun e f => e.hi < f.lo) := by
                      rw [List.pairwise_append]
                      refine ⟨hout, by simp, ?_⟩
                      intro e he f hf
                      rw [List.mem_singleton] at hf
                      subst hf
                      show e.hi < p.lo
                      exact horel e he p hmemp
                    have hbe : ∀ e ∈ out ++ [(⟨p.frag, p.lo, t.lo - 1⟩ : FCR)],
                        e.lo ≤ dEnd := by
                      intro e he
                      rcases List.mem_append.mp he with he | he
                      · exact holo e he
                      · rw [List.mem_singleton] at he
                        rw [he]
                        exact le_trans hvp.1 hvp.2
                    by_cases hc5 : t.hi < p.hi
                    · rw [if_pos hc5] at hrun
                      have hdense : fr.dense = true := by
                        rcases hc2 with h | h
                        · exact h
                        · omega
                      have hxtig : fcrTight frags ⟨p.frag, t.hi + 1, p.hi⟩ = true := by
                        rw [fcrTight_iff]
                        right
                        intro fr' hfr' hd
                        have hfr'' : fragLookup frags p.frag = some fr' := hfr'
                        rw [hl] at hfr''
                        cases hfr''
                        rw [hdense] at hd
                        cases hd
                      have hx2disj : ∀ s ∈ t :: q2t,
                          DisjSameFrag ⟨p.frag, t.hi + 1, p.hi⟩ s := by
                        intro s hs hfeq
                        have hfeq' : p.frag = s.frag := hfeq
                        show p.hi < s.lo ∨ s.hi < t.hi + 1
                        have hds : p.hi < s.lo ∨ s.hi < p.lo := hdp2 s hs hfeq'
                        have hsl := (hlo2 s hs).1
                        have hsv := (hval2 s hs).1
                        rcases hds with h | h
                        · exact Or.inl h
                        · omega
                      refine ih _ _ _ res ubr hrun ⟨pqPush_pairwise hsort2, ?_, ?_,
                          pqPush_pairwise_disj hdis2 hx2disj⟩ hePair ?_ hbe
                      · intro r hr
                        rcases mem_pqPush.mp hr with rfl | hr
                        · exact ⟨show t.hi + 1 ≤ p.hi by omega, hvp.2⟩
                        · exact hval2 r hr
                      · intro r hr
                        rcases mem_pqPush.mp hr with rfl | hr
                        · exact hxtig
                        · exact htig2 r hr
                      · intro e he r hr
                        rcases List.mem_append.mp he with he | he
                        · have h1 := horel e he p hmemp
                          have h2 : p.lo ≤ r.lo := by
                            rcases mem_pqPush.mp hr with rfl | hr
                            · show p.lo ≤ t.hi + 1
                              have h3 := hvt2.1
                              omega
                            · exact (hlo2 r hr).1
                          omega
                        · rw [List.mem_singleton] at he
                          subst he
                          show t.lo - 1 < r.lo
                          rcases mem_pqPush.mp hr with rfl | hr
                          · show t.lo - 1 < t.hi + 1
                            have h3 := hvt2.1
                            omega
                          · have := htlo r hr
                            omega
                    · rw [if_neg hc5] at hrun
                      refine ih _ _ _ res ubr hrun ⟨hsort2, hval2, htig2, hdis2⟩ hePair ?_
                        hbe
                      intro e he r hr
                      rcases List.mem_append.mp he with he | he
                      · have h1 := horel e he p hmemp
                        have h2 := (hlo2 r hr).1
                        omega
                      · rw [List.mem_singleton] at he
                        subst he
                        show t.lo - 1 < r.lo
                        have := htlo r hr
                        omega
                  · rw [if_neg hc4] at hrun
                    have hpht : p.hi < t.lo := by
                      rcases Int.lt_trichotomy t.frag p.frag with h | h | h
                      · have hst := hstop t q2t rfl
                        by_contra hcon
                        push_neg at hcon
                        exact hst ⟨h, hlot.1, by omega⟩
                      · have hds : p.hi < t.lo ∨ t.hi < p.lo :=
                          hdp2 t hmemt2 (show p.frag = t.frag from h.symm)
                        rcases hds with h1 | h1
                        · exact h1
                        · have h2 := hlot.1
                          have h3 := hvt2.1
                          omega
                      · by_contra hcon
                        push_neg at hcon
                        exact hc4 ⟨h, by omega⟩
                    refine ih _ _ _ res ubr hrun ⟨hsort2, hval2, htig2, hdis2⟩ ?_ ?_ hbp
                    · rw [List.pairwise_append]
                      refine ⟨hout, by simp, ?_⟩
                      intro e he f hf
                      rw [List.mem_singleton] at hf
                      rw [hf]
                      exact horel e he p hmemp
                    · intro e he r hr
                      rcases List.mem_append.mp he with he | he
                      · have h1 := horel e he p hmemp
                        have h2 := (hlo2 r hr).1
                        omega
                      · rw [List.mem_singleton] at he
                        subst he
                        have := htlo r hr
                        omega
          · rw [if_neg hc2] at hrun
            have hdense : fr.dense = false := by
              rcases Bool.eq_false_or_eq_true fr.dense with h | h
              · exact absurd (Or.inl h) hc2
              · exact h
            have hne : p.lo ≠ p.hi := fun h => hc2 (Or.inr h)
            have hcoordp : ∀ c ∈ fr.coords, c < p.lo ∨ c ≤ p.hi := by
              rcases fcrTight_iff.mp (htig p hmemp) with h | h
              · exact absurd h hne
              · exact h fr hl hdense
            cases q1 with
            | nil =>
              exact absurd ⟨rfl, Or.inr (Or.inl hne)⟩ hc1
            | cons t q1t =>
              dsimp only at hrun
              have htlo1 : ∀ r ∈ t :: q1t, t.lo ≤ r.lo := by
                intro r hr
                rcases List.mem_cons.mp hr with rfl | hr
                · exact Nat.le_refl _
                · exact fcrBefore_le ((List.pairwise_cons.mp hsort.2).1 r hr)
              by_cases hc6 : p.hi < t.lo
              · rw [if_pos hc6] at hrun
                refine ih _ _ _ res ubr hrun hq1 ?_ ?_ hbp
                · rw [List.pairwise_append]
                  refine ⟨hout, by simp, ?_⟩
                  intro e he f hf
                  rw [List.mem_singleton] at hf
                  rw [hf]
                  exact horel e he p hmemp
                · intro e he r hr
                  rcases List.mem_append.mp he with he | he
                  · exact horel e he r (List.mem_cons_of_mem p hr)
                  · rw [List.mem_singleton] at he
                    subst he
                    have := htlo1 r hr
                    omega
              · rw [if_neg hc6] at hrun
                obtain ⟨hu, hv⟩ := firstTwoCoords_spec fr.coords p.lo (dEnd + 1)
                  (hcoords fr (fragLookup_mem hl))
                by_cases hc7 : dEnd < (firstTwoCoords fr.coords p.lo (dEnd + 1)).1
                · rw [if_pos hc7] at hrun
                  exact ih _ _ _ res ubr hrun hq1 hout
                    (fun e he r hr => horel e he r (List.mem_cons_of_mem p hr)) holo
                · rw [if_neg hc7] at hrun
                  have hu' : (firstTwoCoords fr.coords p.lo (dEnd + 1)).1 ∈ fr.coords ∧
                      p.lo ≤ (firstTwoCoords fr.coords p.lo (dEnd + 1)).1 := by
                    rcases hu with h | h
                    · exact absurd h (by omega)
                    · exact h
                  have huhi : (firstTwoCoords fr.coords p.lo (dEnd + 1)).1 ≤ p.hi := by
                    rcases hcoordp _ hu'.1 with h | h
                    · omega
                    · exact h
                  have hq2inv : QInv frags dEnd
                      (pqPush ⟨p.frag, (firstTwoCoords fr.coords p.lo (dEnd + 1)).1,
                        (firstTwoCoords fr.coords p.lo (dEnd + 1)).1⟩ (t :: q1t)) := by
                    refine ⟨pqPush_pairwise hsort.2, ?_, ?_, ?_⟩
                    · intro r hr
                      rcases mem_pqPush.mp hr with rfl | hr
                      · exact ⟨Nat.le_refl _,
                          show (firstTwoCoords fr.coords p.lo (dEnd + 1)).1 ≤ dEnd by omega⟩
                      · exact hval r (List.mem_cons_of_mem p hr)
                    · intro r hr
                      rcases mem_pqPush.mp hr with rfl | hr
                      · rw [fcrTight_iff]
                        exact Or.inl rfl
                      · exact htig r (List.mem_cons_of_mem p hr)
                    · refine pqPush_pairwise_disj hdis.2 ?_
                      intro s hs hfeq
                      have hfeq' : p.frag = s.frag := hfeq
                      show (firstTwoCoords fr.coords p.lo (dEnd + 1)).1 < s.lo ∨
                        s.hi < (firstTwoCoords fr.coords p.lo (dEnd + 1)).1
                      have hds : p.hi < s.lo ∨ s.hi < p.lo := hdis.1 s hs hfeq'
                      have h2 := hlo1 s hs
                      have h3 := (hval s (List.mem_cons_of_mem p hs)).1
                      rcases hds with h | h
                      · exact Or.inl (by omega)
                      · omega
                  have hq2orel : ∀ e ∈ out, ∀ r ∈
                      pqPush ⟨p.frag, (firstTwoCoords fr.coords p.lo (dEnd + 1)).1,
                        (firstTwoCoords fr.coords p.lo (dEnd + 1)).1⟩ (t :: q1t), e.hi < r.lo := by
                    intro e he r hr
                    have h1 := horel e he p hmemp
                    rcases mem_pqPush.mp hr with rfl | hr
                    · show e.hi < (firstTwoCoords fr.coords p.lo (dEnd + 1)).1
                      omega
                    · have := hlo1 r hr
                      omega
                  by_cases hc8 : dEnd < (firstTwoCoords fr.coords p.lo (dEnd + 1)).2
                  · rw [if_pos hc8] at hrun
                    exact ih _ _ _ res ubr hrun hq2inv hout hq2orel holo
                  · rw [if_neg hc8] at hrun
                    have hv' : (firstTwoCoords fr.coords p.lo (dEnd + 1)).2 ∈ fr.coords ∧
                        p.lo ≤ (firstTwoCoords fr.coords p.lo (dEnd + 1)).2 ∧
                        (firstTwoCoords fr.coords p.lo (dEnd + 1)).1 <
                          (firstTwoCoords fr.coords p.lo (dEnd + 1)).2 := by
                      rcases hv with h | h
                      · exact absurd h (by omega)
                      · exact h
                    have hvhi : (firstTwoCoords fr.coords p.lo (dEnd + 1)).2 ≤ p.hi := by
                      rcases hcoordp _ hv'.1 with h | h
                      · omega
                      · exact h
                    obtain ⟨hs2, hv2, ht2, hd2⟩ := hq2inv
                    refine ih _ _ _ res ubr hrun ⟨pqPush_pairwise hs2, ?_, ?_, ?_⟩ hout ?_
                      holo
                    · intro r hr
                      rcases mem_pqPush.mp hr with rfl | hr
                      · exact ⟨hvhi, hvp.2⟩
                      · exact hv2 r hr
                    · intro r hr
                      rcases mem_pqPush.mp hr with rfl | hr
                      · exact fcrTight_shrink (htig p hmemp) hne hv'.2.1
                      · exact ht2 r hr
                    · refine pqPush_pairwise_disj hd2 ?_
                      intro s hs hfeq
                      have hfeq' : p.frag = s.frag := hfeq
                      show p.hi < s.lo ∨ s.hi < (firstTwoCoords fr.coords p.lo (dEnd + 1)).2
                      rcases mem_pqPush.mp hs with rfl | hs
                      · exact Or.inr (by
                          show (firstTwoCoords fr.coords p.lo (dEnd + 1)).1 <
                            (firstTwoCoords fr.coords p.lo (dEnd + 1)).2
                          exact hv'.2.2)
                      · have hds : p.hi < s.lo ∨ s.hi < p.lo := hdis.1 s hs hfeq'
                        have h2 := hlo1 s hs
                        have h3 := (hval s (List.mem_cons_of_mem p hs)).1
                        rcases hds with h | h
                        · exact Or.inl h
                        · omega
                    · intro e he r hr
                      have h1 := horel e he p hmemp
                      rcases mem_pqPush.mp hr with rfl | hr
                      · show e.hi < (firstTwoCoords fr.coords p.lo (dEnd + 1)).2
                        omega
                      · exact hq2orel e he r hr

/-- Per-tile core of claim C2: when the merge completes on valid, tight,
same-fragment-disjoint input ranges over fragments with sorted
coordinates, the tile's delivered cell sequence is strictly increasing
and every emitted range starts inside the tile domain. -/
theorem mergeModel_sorted_bounded (frags : List Frag) (dEnd fuel : Nat)
    (inputs out : List FCR) (ub : Bool)
    (hcoords : ∀ fr ∈ frags, fr.coords.Pairwise (· < ·))
    (hvalid : ∀ r ∈ inputs, ValidR dEnd r)
    (htight : ∀ r ∈ inputs, fcrTight frags r = true)
    (hdisj : inputs.Pairwise DisjSameFrag)
    (hrun : mergeModel frags dEnd fuel inputs = .ok out ub) :
    (deliveredCells frags dEnd out).Pairwise (· < ·) ∧ ∀ r ∈ out, r.lo ≤ dEnd := by
  have h := mergeLoop_chain frags dEnd hcoords fuel (pqSeed inputs) [] false out ub hrun
    ⟨pqSeed_pairwise inputs,
      fun r hr => hvalid r (pqSeed_mem.mp hr),
      fun r hr => htight r (pqSeed_mem.mp hr),
      (List.Perm.pairwise_iff DisjSameFrag_symm (pqSeed_perm inputs)).mpr hdisj⟩
    List.Pairwise.nil (fun e he => absurd he (List.not_mem_nil e))
    (fun e he => absurd he (List.not_mem_nil e))
  exact ⟨delivered_pairwise frags dEnd out h.1, h.2⟩

theorem bumpRM_length : ∀ (ds : List (Int × Int)) (xs : List Int), xs.length = ds.length →
    (bumpRM ds xs).1.length = xs.length := by
  intro ds
  induction ds with
  | nil =>
    intro xs hlen
    cases xs with
    | nil => rfl
    | cons x xs => simp at hlen
  | cons d ds ih =>
    intro xs hlen
    cases xs with
    | nil => simp at hlen
    | cons x xs =>
      have hlen2 : xs.length = ds.length := by simpa using hlen
      have htl := ih xs hlen2
      cases hb : bumpRM ds xs with
      | mk xs2 carry =>
        rw [hb] at htl
        have hxs2 : xs2.length = xs.length := htl
        cases carry
        · have heq : bumpRM (d :: ds) (x :: xs) = (x :: xs2, false) := by
            simp only [bumpRM, hb]
          rw [heq]
          show xs2.length + 1 = xs.length + 1
          omega
        · by_cases hgt : d.2 < x + 1
          · have heq : bumpRM (d :: ds) (x :: xs) = (d.1 :: xs2, true) := by
              simp only [bumpRM, hb]
              rw [if_pos hgt]
            rw [heq]
            show xs2.length + 1 = xs.length + 1
            omega
          · have heq : bumpRM (d :: ds) (x :: xs) = ((x + 1) :: xs2, false) := by
              simp only [bumpRM, hb]
              rw [if_neg hgt]
            rw [heq]
            show xs2.length + 1 = xs.length + 1
            omega

theorem nextRM_length (dom : List (Int × Int)) (c : List Int) (hlen : c.length = dom.length) :
    (nextRM dom c).length = c.length := by
  cases dom with
  | nil =>
    cases c with
    | nil => rfl
    | cons x xs => simp at hlen
  | cons d ds =>
    cases c with
    | nil => simp at hlen
    | cons x xs =>
      have hlen2 : xs.length = ds.length := by simpa using hlen
      have hb2 := bumpRM_length ds xs hlen2
      cases hb : bumpRM ds xs with
      | mk xs2 carry =>
        rw [hb] at hb2
        have hxs2 : xs2.length = xs.length := hb2
        cases carry
        · have heq : nextRM (d :: ds) (x :: xs) = x :: xs2 := by
            simp only [nextRM, hb]
          rw [heq]
          show xs2.length + 1 = xs.length + 1
          omega
        · have heq : nextRM (d :: ds) (x :: xs) = (x + 1) :: xs2 := by
            simp only [nextRM, hb]
          rw [heq]
          show xs2.length + 1 = xs.length + 1
          omega

theorem bumpRM_lt : ∀ (ds : List (Int × Int)) (xs : List Int), xs.length = ds.length →
    (bumpRM ds xs).2 = false → tileLexLt xs (bumpRM ds xs).1 = true := by
  intro ds
  induction ds with
  | nil =>
    intro xs hlen hcarry
    cases xs with
    | nil => cases hcarry
    | cons x xs => simp at hlen
  | cons d ds ih =>
    intro xs hlen hcarry
    cases xs with
    | nil => simp at hlen
    | cons x xs =>
      have hlen2 : xs.length = ds.length := by simpa using hlen
      cases hb : bumpRM ds xs with
      | mk xs2 carry =>
        cases carry
        · have heq : bumpRM (d :: ds) (x :: xs) = (x :: xs2, false) := by
            simp only [bumpRM, hb]
          rw [heq]
          show tileLexLt (x :: xs) (x :: xs2) = true
          have h1 := ih xs hlen2 (by rw [hb])
          rw [hb] at h1
          have h2 : tileLexLt xs xs2 = true := h1
          simp only [tileLexLt, Bool.or_eq_true, Bool.and_eq_true, decide_eq_true_eq]
          exact Or.inr ⟨trivial, h2⟩
        · by_cases hgt : d.2 < x + 1
          · have heq : bumpRM (d :: ds) (x :: xs) = (d.1 :: xs2, true) := by
              simp only [bumpRM, hb]
              rw [if_pos hgt]
            rw [heq] at hcarry
            cases hcarry
          · have heq : bumpRM (d :: ds) (x :: xs) = ((x + 1) :: xs2, false) := by
              simp only [bumpRM, hb]
              rw [if_neg hgt]
            rw [heq]
            show tileLexLt (x :: xs) ((x + 1) :: xs2) = true
            simp only [tileLexLt, Bool.or_eq_true, Bool.and_eq_true, decide_eq_true_eq]
            exact Or.inl (by omega)

theorem tileLexLt_nextRM (dom : List (Int × Int)) (c : List Int)
    (hlen : c.length = dom.length) (hne : c ≠ []) : tileLexLt c (nextRM dom c) = true := by
  cases dom with
  | nil =>
    cases c with
    | nil => exact absurd rfl hne
    | cons x xs => simp at hlen
  | cons d ds =>
    cases c with
    | nil => exact absurd rfl hne
    | cons x xs =>
      have hlen2 : xs.length = ds.length := by simpa using hlen
      cases hb : bumpRM ds xs with
      | mk xs2 carry =>
        cases carry
        · have heq : nextRM (d :: ds) (x :: xs) = x :: xs2 := by
            simp only [nextRM, hb]
          rw [heq]
          have h1 := bumpRM_lt ds xs hlen2 (by rw [hb])
          rw [hb] at h1
          have h2 : tileLexLt xs xs2 = true := h1
          show tileLexLt (x :: xs) (x :: xs2) = true
          simp only [tileLexLt, Bool.or_eq_true, Bool.and_eq_true, decide_eq_true_eq]
          exact Or.inr ⟨trivial, h2⟩
        · have heq : nextRM (d :: ds) (x :: xs) = (x + 1) :: xs2 := by
            simp only [nextRM, hb]
          rw [heq]
          show tileLexLt (x :: xs) ((x + 1) :: xs2) = true
          simp only [tileLexLt, Bool.or_eq_true, Bool.and_eq_true, decide_eq_true_eq]
          exact Or.inl (by omega)

theorem tileLexLt_trans : ∀ (a b c : List Int), tileLexLt a b = true →
    tileLexLt b c = true → tileLexLt a c = true := by
  intro a
  induction a with
  | nil =>
    intro b c h1 _
    cases b <;> simp [tileLexLt] at h1
  | cons x xs ih =>
    intro b c h1 h2
    cases b with
    | nil => simp [tileLexLt] at h1
    | cons y ys =>
      cases c with
      | nil => simp [tileLexLt] at h2
      | cons z zs =>
        simp only [tileLexLt, Bool.or_eq_true, Bool.and_eq_true, decide_eq_true_eq]
          at h1 h2 ⊢
        rcases h1 with h1 | ⟨h1e, h1l⟩
        · rcases h2 with h2 | ⟨h2e, h2l⟩
          · exact Or.inl (by omega)
          · exact Or.inl (by omega)
        · rcases h2 with h2 | ⟨h2e, h2l⟩
          · exact Or.inl (by omega)
          · exact Or.inr ⟨by omega, ih ys zs h1l h2l⟩

theorem tileOrderLt_trans (order : CellOrderKind) (a b c : List Int)
    (h1 : tileOrderLt order a b = true) (h2 : tileOrderLt order b c = true) :
    tileOrderLt order a c = true := by
  cases order with
  | rowMajor => exact tileLexLt_trans a b c h1 h2
  | colMajor => exact tileLexLt_trans a.reverse b.reverse c.reverse h1 h2

theorem tileOrderLt_step (order : CellOrderKind) (dom : List (Int × Int)) (c c2 : List Int)
    (hlen : c.length = dom.length) (hne : c ≠ [])
    (hstep : get_next_range_global_tile_coords order dom c = some c2) :
    tileOrderLt order c c2 = true ∧ c2.length = c.length := by
  unfold get_next_range_global_tile_coords at hstep
  by_cases hd : coordsInDomain dom (get_next_tile_coords order dom c) = true
  · rw [if_pos hd] at hstep
    cases hstep
    cases order with
    | rowMajor =>
      exact ⟨tileLexLt_nextRM dom c hlen hne, nextRM_length dom c hlen⟩
    | colMajor =>
      constructor
      · show tileLexLt c.reverse ((nextRM dom.reverse c.reverse).reverse).reverse = true
        rw [List.reverse_reverse]
        refine tileLexLt_nextRM dom.reverse c.reverse (by simpa using hlen) ?_
        intro h
        rw [List.reverse_eq_nil_iff] at h
        exact hne h
      · show ((nextRM dom.reverse c.reverse).reverse).length = c.length
        rw [List.length_reverse,
          nextRM_length dom.reverse c.reverse (by simpa using hlen), List.length_reverse]
  · rw [if_neg hd] at hstep
    cases hstep

theorem tileSeq_mem_lt (order : CellOrderKind) (dom : List (Int × Int)) :
    ∀ (fuel : Nat) (c : List Int), c.length = dom.length → c ≠ [] →
    ∀ x ∈ tileSeq order dom fuel c, x = c ∨ tileOrderLt order c x = true := by
  intro fuel
  induction fuel with
  | zero =>
    intro c _ _ x hx
    left
    simpa [tileSeq] using hx
  | succ fuel ih =>
    intro c hlen hne x hx
    simp only [tileSeq] at hx
    cases hstep : get_next_range_global_tile_coords order dom c with
    | none =>
      rw [hstep] at hx
      left
      simpa using hx
    | some c2 =>
      rw [hstep] at hx
      rcases List.mem_cons.mp hx with rfl | hx
      · exact Or.inl rfl
      · obtain ⟨hlt, hlen2⟩ := tileOrderLt_step order dom c c2 hlen hne hstep
        have hne2 : c2 ≠ [] := by
          intro h
          rw [h] at hlen2
          simp at hlen2
          exact hne (List.length_eq_zero.mp (by omega))
        rcases ih c2 (by omega) hne2 x hx with rfl | h
        · exact Or.inr hlt
        · exact Or.inr (tileOrderLt_trans order c c2 x hlt h)

theorem tileSeq_pairwise (order : CellOrderKind) (dom : List (Int × Int)) :
    ∀ (fuel : Nat) (c : List Int), c.length = dom.length → c ≠ [] →
    (tileSeq order dom fuel c).Pairwise (fun a b => tileOrderLt order a b = true) := by
  intro fuel
  induction fuel with
  | zero =>
    intro c _ _
    simp [tileSeq]
  | succ fuel ih =>
    intro c hlen hne
    simp only [tileSeq]
    cases hstep : get_next_range_global_tile_coords order dom c with
    | none =>
      simp
    | some c2 =>
      dsimp only
      obtain ⟨hlt, hlen2⟩ := tileOrderLt_step order dom c c2 hlen hne hstep
      have hne2 : c2 ≠ [] := by
        intro h
        rw [h] at hlen2
        simp at hlen2
        exact hne (List.length_eq_zero.mp (by omega))
      rw [List.pairwise_cons]
      constructor
      · intro x hx
        rcases tileSeq_mem_lt order dom fuel c2 (by omega) hne2 x hx with rfl | h
        · exact hlt
        · exact tileOrderLt_trans order c c2 x hlt h
      · exact ih c2 (by omega) hne2

theorem init_shape (domain : List (Int × Int)) (extents : List Int)
    (range : List (Int × Int)) (rtd : List (Int × Int)) (c0 : List Int)
    (h : init_range_global_tile_coords domain extents range = some (rtd, c0)) :
    c0.length = rtd.length ∧
    rtd.length = (List.zip (List.zip domain extents) range).length := by
  simp only [init_range_global_tile_coords] at h
  split at h
  · simp only [Option.some.injEq, Prod.mk.injEq] at h
    obtain ⟨h1, h2⟩ := h
    subst h1
    subst h2
    simp
  · cases h

theorem rangeTileSeq_pairwise (order : CellOrderKind) (domain : List (Int × Int))
    (extents : List Int) (range : List (Int × Int)) (fuel : Nat)
    (hne : List.zip (List.zip domain extents) range ≠ []) :
    (rangeTileSeq order domain extents range fuel).Pairwise
      (fun a b => tileOrderLt order a b = true) := by
  unfold rangeTileSeq
  cases hinit : init_range_global_tile_coords domain extents range with
  | none => exact List.Pairwise.nil
  | some rc =>
    obtain ⟨rtd, c0⟩ := rc
    obtain ⟨h1, h2⟩ := init_shape domain extents range rtd c0 hinit
    refine tileSeq_pairwise order rtd fuel c0 h1 ?_
    intro h
    rw [h] at h1
    apply hne
    rw [← List.length_eq_zero]
    simp at h1
    omega

theorem remainingAll_initial {α : Type} (allPlans : List (List PlanEntry))
    (vals : PlanEntry → Option (List α)) :
    remainingAll allPlans vals initialState =
      (allPlans.map (fun p => (p.map (entryVals vals)).flatten)).flatten := by
  cases allPlans with
  | nil => rfl
  | cons p ps =>
    show planTailFrom vals p 0 ++
        (ps.map (fun q => (q.map (entryVals vals)).flatten)).flatten =
      (p.map (entryVals vals)).flatten ++
        (ps.map (fun q => (q.map (entryVals vals)).flatten)).flatten
    congr 1
    cases p with
    | nil => rfl
    | cons e es =>
      show (entryVals vals e).drop 0 ++ (es.map (entryVals vals)).flatten = _
      rw [List.drop_zero]
      rfl

theorem entryVals_toEntry (fragsAt : Nat → List Frag) (dEnd i : Nat) (r : FCR)
    (hlo : r.lo ≤ dEnd) :
    entryVals (valsGlobal fragsAt dEnd) (toEntry dEnd i r) =
      (streamCells (fragsAt i) dEnd r).map (fun p => i * (dEnd + 1) + p) := by
  have hp0 : (toEntry dEnd i r).p0 = i * (dEnd + 1) + r.lo := rfl
  have hp1 : (toEntry dEnd i r).p1 = i * (dEnd + 1) + r.hi := rfl
  have hdiv : (toEntry dEnd i r).p0 / (dEnd + 1) = i := by
    have h0 : r.lo / (dEnd + 1) = 0 := Nat.div_eq_of_lt (by omega)
    rw [hp0, Nat.mul_comm, Nat.mul_add_div (by omega), h0]
    omega
  have hmod : (toEntry dEnd i r).p0 % (dEnd + 1) = r.lo := by
    rw [hp0, Nat.mul_comm, Nat.mul_add_mod]
    exact Nat.mod_eq_of_lt (by omega)
  unfold entryVals
  by_cases hf : r.frag = -1
  · rw [if_pos (show (toEntry dEnd i r).frag = -1 from hf)]
    unfold streamCells
    rw [if_pos hf]
    rfl
  · rw [if_neg (show ¬(toEntry dEnd i r).frag = -1 from hf)]
    unfold streamCells
    rw [if_neg hf]
    unfold valsGlobal
    rw [Option.getD_some, hdiv, hmod]
    have hsub : (toEntry dEnd i r).p1 - i * (dEnd + 1) = r.hi := by
      rw [hp1]
      omega
    rw [hsub]
    rfl

theorem plan_flatten_toEntry (fragsAt : Nat → List Frag) (dEnd i : Nat) (out : List FCR)
    (hlo : ∀ r ∈ out, r.lo ≤ dEnd) :
    (((out.map (toEntry dEnd i)).map (entryVals (valsGlobal fragsAt dEnd)))).flatten =
      ((out.map (streamCells (fragsAt i) dEnd)).flatten).map (fun p => i * (dEnd + 1) + p) := by
  induction out with
  | nil => rfl
  | cons r rs ih =>
    simp only [List.map_cons, List.flatten_cons]
    rw [entryVals_toEntry fragsAt dEnd i r (hlo r (List.mem_cons_self r rs)),
      ih (fun s hs => hlo s (List.mem_cons_of_mem r hs)), List.map_append]

theorem remaining_plansOf (fragsAt : Nat → List Frag) (dEnd : Nat) (outs : Nat → List FCR)
    (n : Nat) (hlo : ∀ i < n, ∀ r ∈ outs i, r.lo ≤ dEnd) :
    remainingAll (plansOf dEnd outs n) (valsGlobal fragsAt dEnd) initialState =
      globalStream fragsAt dEnd outs n := by
  rw [remainingAll_initial]
  unfold plansOf globalStream
  rw [List.map_map]
  congr 1
  apply List.map_congr_left
  intro i hi
  exact plan_flatten_toEntry fragsAt dEnd i (outs i) (hlo i (List.mem_range.mp hi))

theorem streamFlat_pairwise (frags : List Frag) (dEnd : Nat) (out : List FCR)
    (h : (deliveredCells frags dEnd out).Pairwise (· < ·)) :
    ((out.map (streamCells frags dEnd)).flatten).Pairwise (· < ·) := by
  refine List.Pairwise.sublist ?_ h
  clear h
  unfold deliveredCells
  induction out with
  | nil => exact List.Sublist.refl _
  | cons r rs ih =>
    simp only [List.map_cons, List.flatten_cons]
    refine List.Sublist.append ?_ ih
    unfold streamCells
    by_cases hf : r.frag = -1
    · rw [if_pos hf]
      exact List.nil_sublist _
    · rw [if_neg hf]

theorem streamFlat_bound (frags : List Frag) (dEnd : Nat) (out : List FCR) :
    ∀ x ∈ (out.map (streamCells frags dEnd)).flatten, x < dEnd + 1 := by
  intro x hx
  rw [List.mem_flatten] at hx
  obtain ⟨l, hl, hxl⟩ := hx
  rw [List.mem_map] at hl
  obtain ⟨r, _, rfl⟩ := hl
  unfold streamCells at hxl
  by_cases hf : r.frag = -1
  · rw [if_pos hf] at hxl
    cases hxl
  · rw [if_neg hf] at hxl
    rw [List.mem_filter] at hxl
    exact List.mem_range.mp hxl.1

theorem globalStream_pairwise (fragsAt : Nat → List Frag) (dEnd : Nat)
    (outs : Nat → List FCR) (n : Nat)
    (hsorted : ∀ i < n,
      (((outs i).map (streamCells (fragsAt i) dEnd)).flatten).Pairwise (· < ·)) :
    (globalStream fragsAt dEnd outs n).Pairwise (· < ·) := by
  unfold globalStream
  rw [List.pairwise_flatten]
  constructor
  · intro l hl
    rw [List.mem_map] at hl
    obtain ⟨i, hi, rfl⟩ := hl
    rw [List.pairwise_map]
    refine (hsorted i (List.mem_range.mp hi)).imp ?_
    intro a b h
    omega
  · rw [List.pairwise_map]
    refine (List.pairwise_lt_range n).imp_of_mem ?_
    intro i j _ _ hij x hx y hy
    rw [List.mem_map] at hx hy
    obtain ⟨p, hp, rfl⟩ := hx
    obtain ⟨q, hq, rfl⟩ := hy
    have hpb := streamFlat_bound (fragsAt i) dEnd (outs i) p hp
    have h1 : i * (dEnd + 1) + p < (i + 1) * (dEnd + 1) := by
      rw [Nat.add_mul, Nat.one_mul]
      omega
    have h2 : (i + 1) * (dEnd + 1) ≤ j * (dEnd + 1) :=
      Nat.mul_le_mul_right _ (by omega)
    omega

/-- C2: for every schema (cell/tile order, domain, tile extents), set of
fragments and query range, the sequence of cells the dense read delivers
into a single attribute's buffer is sorted strictly by the schema's
global cell order, and no cell is delivered twice.  The cursor
(`init_range_global_tile_coords` and
`get_next_range_global_tile_coords`, lines 807-903) visits the range
tiles in strictly increasing global tile order; one per-tile plan is
appended per visited tile by `get_next_cell_ranges_dense`
(lines 507-646) and consumed in the same order by the streaming loop of
`read_multiple_fragments_dense_attr` (lines 966-1020); and the complete
run of read calls until `done_` delivers exactly the merged tiles' cell
streams in that order, with the delivered global cell positions strictly
increasing. -/
theorem c2_query_cells_sorted_nodup (order : CellOrderKind)
    (domain range : List (Int × Int)) (extents : List Int) (tfuel : Nat)
    (fragsAt : Nat → List Frag) (dEnd mfuel : Nat)
    (inputsAt : Nat → List FCR) (outs : Nat → List FCR) (ubs : Nat → Bool)
    (cellSz cap n : Nat)
    (hn : n = (rangeTileSeq order domain extents range tfuel).length)
    (hdims : List.zip (List.zip domain extents) range ≠ [])
    (hsize : (dEnd : Int) + 1 = extents.prod)
    (hcoords : ∀ i, ∀ fr ∈ fragsAt i, fr.coords.Pairwise (· < ·))
    (hvalid : ∀ i, ∀ r ∈ inputsAt i, ValidR dEnd r)
    (htight : ∀ i, ∀ r ∈ inputsAt i, fcrTight (fragsAt i) r = true)
    (hdisj : ∀ i, (inputsAt i).Pairwise DisjSameFrag)
    (hmerge : ∀ i < n, mergeModel (fragsAt i) dEnd mfuel (inputsAt i) = .ok (outs i) (ubs i))
    (hcs : cellSz ≤ cap) :
    (rangeTileSeq order domain extents range tfuel).Pairwise
      (fun a b => tileOrderLt order a b = true) ∧
    (globalStream fragsAt dEnd outs n).Pairwise (· < ·) ∧
    ∃ stf, runReads cellSz cap (plansOf dEnd outs n) (valsGlobal fragsAt dEnd)
        ((globalStream fragsAt dEnd outs n).length + 1) initialState =
      some (globalStream fragsAt dEnd outs n, stf) ∧ stf.done = true := by
  subst hn
  set n := (rangeTileSeq order domain extents range tfuel).length with hn
  have hcore : ∀ i < n, (deliveredCells (fragsAt i) dEnd (outs i)).Pairwise (· < ·) ∧
      ∀ r ∈ outs i, r.lo ≤ dEnd := by
    intro i hi
    exact mergeModel_sorted_bounded (fragsAt i) dEnd mfuel (inputsAt i) (outs i) (ubs i)
      (hcoords i) (hvalid i) (htight i) (hdisj i) (hmerge i hi)
  refine ⟨rangeTileSeq_pairwise order domain extents range tfuel hdims, ?_, ?_⟩
  · apply globalStream_pairwise
    intro i hi
    exact streamFlat_pairwise (fragsAt i) dEnd (outs i) (hcore i hi).1
  · have hrem := remaining_plansOf fragsAt dEnd outs n (fun i hi => (hcore i hi).2)
    have hv : ∀ p ∈ plansOf dEnd outs n, ∀ e ∈ p,
        e.frag = -1 ∨ valsGlobal fragsAt dEnd e ≠ none := by
      intro p _ e _
      right
      intro h
      exact Option.noConfusion h
    have hwf0 : StWF (plansOf dEnd outs n) initialState := by
      refine ⟨Nat.le_refl 0, by simp [initialState], fun _ => ⟨rfl, rfl⟩, ?_, ?_⟩
      · intro h
        simp [initialState] at h
      · intro h
        simp [initialState] at h
    obtain ⟨stf, hrun, hdone⟩ := runReads_all cellSz cap (plansOf dEnd outs n)
      (valsGlobal fragsAt dEnd) hv hcs
      ((remainingAll (plansOf dEnd outs n) (valsGlobal fragsAt dEnd) initialState).length + 1)
      initialState hwf0 (Nat.le_refl _)
    rw [hrem] at hrun
    exact ⟨stf, hrun, hdone⟩

/-- Witness for C2: a two-dimensional schema with domain
`[0,3] × [0,1]`, tile extents `2 × 2` (tile size 4, `dEnd = 3`) and the
full domain as query range; the cursor visits the two tiles
`[0,0], [1,0]` in order, each tile merges two dense fragments into
`[0,0], [1,2], [3,3]`, and the full read delivers the strictly
increasing global cell sequence `[0,…,7]`. -/
theorem c2_query_cells_sorted_nodup_witness :
    (rangeTileSeq .rowMajor [(0, 3), (0, 1)] [2, 2] [(0, 3), (0, 1)] 5).Pairwise
      (fun a b => tileOrderLt .rowMajor a b = true) ∧
    (globalStream (fun _ => [⟨true, []⟩, ⟨true, []⟩]) 3
      (fun _ => [⟨0, 0, 0⟩, ⟨1, 1, 2⟩, ⟨0, 3, 3⟩]) 2).Pairwise (· < ·) ∧
    ∃ stf, runReads 1 2 (plansOf 3 (fun _ => [⟨0, 0, 0⟩, ⟨1, 1, 2⟩, ⟨0, 3, 3⟩]) 2)
        (valsGlobal (fun _ => [⟨true, []⟩, ⟨true, []⟩]) 3)
        ((globalStream (fun _ => [⟨true, []⟩, ⟨true, []⟩]) 3
          (fun _ => [⟨0, 0, 0⟩, ⟨1, 1, 2⟩, ⟨0, 3, 3⟩]) 2).length + 1) initialState =
      some (globalStream (fun _ => [⟨true, []⟩, ⟨true, []⟩]) 3
        (fun _ => [⟨0, 0, 0⟩, ⟨1, 1, 2⟩, ⟨0, 3, 3⟩]) 2, stf) ∧ stf.done = true :=
  c2_query_cells_sorted_nodup .rowMajor [(0, 3), (0, 1)] [(0, 3), (0, 1)] [2, 2] 5
    (fun _ => [⟨true, []⟩, ⟨true, []⟩]) 3 10
    (fun _ => [⟨0, 0, 3⟩, ⟨1, 1, 2⟩]) (fun _ => [⟨0, 0, 0⟩, ⟨1, 1, 2⟩, ⟨0, 3, 3⟩])
    (fun _ => false) 1 2 2
    (by decide) (by decide) (by decide)
    (by
      intro i
      show ∀ fr ∈ [(⟨true, []⟩ : Frag), ⟨true, []⟩], fr.coords.Pairwise (· < ·)
      decide)
    (by
      intro i
      intro r hr
      fin_cases hr
      · exact ⟨by decide, by decide⟩
      · exact ⟨by decide, by decide⟩)
    (by
      intro i
      show ∀ r ∈ [(⟨0, 0, 3⟩ : FCR), ⟨1, 1, 2⟩],
        fcrTight [(⟨true, []⟩ : Frag), ⟨true, []⟩] r = true
      decide)
    (by
      intro i
      refine List.Pairwise.cons ?_ (List.Pairwise.cons ?_ List.Pairwise.nil)
      · intro s hs h
        rw [List.mem_singleton] at hs
        subst hs
        exact absurd h (by decide)
      · intro s hs
        cases hs)
    (by
      intro i hi
      show mergeModel [(⟨true, []⟩ : Frag), ⟨true, []⟩] 3 10 [⟨0, 0, 3⟩, ⟨1, 1, 2⟩] =
        .ok [⟨0, 0, 0⟩, ⟨1, 1, 2⟩, ⟨0, 3, 3⟩] false
      rfl)
    (by decide)
